import Mathlib

/-!
Verification model of the PCI DSS PDF control-tree parser
(`pci_dss_parser.py`).  The Python source is shallowly embedded:
strings are `List Char`, regular-expression fragments are modelled by
explicit character scanners over ASCII (the source material and the
regex classes used by the code are ASCII in all relevant places), and
the mutable tree of `ComplianceControlTree` is modelled as a purely
functional rose tree addressed by child-index paths, with the
`last_by_depth` dictionary as a function from depth keys to paths.
-/

namespace PciDss

/-! ## Character classes (ASCII model of the regex classes used) -/

/-- Model of the regex class `\d` on the ASCII range. -/
def isDigitC (c : Char) : Bool := 48 ≤ c.toNat && c.toNat ≤ 57

/-- Model of the regex class `[A-Z]`. -/
def isUpC (c : Char) : Bool := 65 ≤ c.toNat && c.toNat ≤ 90

/-- Model of the regex class `\s` and of the character set removed by
Python `str.strip()` (space, tab, newline, carriage return, vertical
tab, form feed). -/
def isWsC (c : Char) : Bool :=
  c == ' ' || c == '\t' || c == '\n' || c == '\r' || c.toNat == 11 || c.toNat == 12

/-- ASCII lower-casing, as performed by `str.lower()` and by
case-insensitive regex matching on the ASCII range. -/
def lowerC (c : Char) : Char :=
  if 65 ≤ c.toNat ∧ c.toNat ≤ 90 then Char.ofNat (c.toNat + 32) else c

/-- Model of the regex class `\w` on the ASCII range. -/
def isWordC (c : Char) : Bool :=
  isDigitC c || isUpC c || (97 ≤ c.toNat && c.toNat ≤ 122) || c == '_'

/-! ## List utilities shared by the embedding -/

/-- Replace the element at an index by applying `f`, leaving the list
unchanged when the index is out of range (used to model in-place
mutation of a Python list element). -/
def modList (f : α → α) : Nat → List α → List α
  | _, [] => []
  | 0, a :: as => f a :: as
  | n + 1, a :: as => a :: modList f n as

/-- Python `str.strip()`: drop leading and trailing whitespace. -/
def stripWs (t : List Char) : List Char :=
  ((t.dropWhile isWsC).reverse.dropWhile isWsC).reverse

/-- Python `str.replace("\n", " ")`. -/
def replNl (t : List Char) : List Char :=
  t.map (fun c => if c == '\n' then ' ' else c)

theorem dropWhile_length_le (p : α → Bool) (l : List α) :
    (l.dropWhile p).length ≤ l.length := by
  induction l with
  | nil => simp [List.dropWhile]
  | cons a as ih =>
    by_cases h : p a
    · simpa [List.dropWhile, h] using Nat.le_succ_of_le ih
    · simp [List.dropWhile, h]

/-- Worker for `collapseWs`; the flag records whether the previous
character was whitespace (in which case further whitespace of the same
run is dropped). -/
def collapseWsAux : Bool → List Char → List Char
  | _, [] => []
  | pw, c :: cs =>
    if isWsC c then (if pw then [] else [' ']) ++ collapseWsAux true cs
    else c :: collapseWsAux false cs

/-- Python `re.sub(r"\s+", " ", s)`: replace every maximal whitespace
run by a single space. -/
def collapseWs (t : List Char) : List Char := collapseWsAux false t

/-- Python `re.sub(r",$", ".", s)`: replace a trailing comma by a
period. -/
def commaToDot (t : List Char) : List Char :=
  if t.getLast? = some ',' then t.dropLast ++ ['.'] else t

/-! ## The identifier matcher `REQ_INDEX_PATTERN = ^[A-Z]?\d+(?:\.\d+)*\s`

`parseSegs` consumes the maximal run of `(?:\.\d+)*`; as argued below
in `parseReqIdx`, the regex admits no successful backtracking here
(shrinking a digit run or dropping a group leaves a digit or a dot
where `\s` is required), so maximal-munch is faithful. -/

/-- Worker for `parseSegs`.  With the flag `false` the scanner is at a
potential group boundary (a `.` followed by a digit opens a group);
with the flag `true` it is inside the digit run of a group. -/
def segsAux : Bool → List Char → List Char × List Char
  | _, [] => ([], [])
  | false, c :: rest =>
    if c = '.' then
      match rest with
      | [] => ([], c :: rest)
      | c2 :: r2 =>
        if isDigitC c2 then
          let q := segsAux true r2
          (c :: c2 :: q.1, q.2)
        else ([], c :: rest)
    else ([], c :: rest)
  | true, c :: rest =>
    if isDigitC c then
      let q := segsAux true rest
      (c :: q.1, q.2)
    else if c = '.' then
      match rest with
      | [] => ([], c :: rest)
      | c2 :: r2 =>
        if isDigitC c2 then
          let q := segsAux true r2
          (c :: c2 :: q.1, q.2)
        else ([], c :: rest)
    else ([], c :: rest)

def parseSegs (t : List Char) : List Char × List Char := segsAux false t

/-- `REQ_INDEX_PATTERN.match(text)` followed by `.group(0).strip()`:
returns the identifier token (without its trailing whitespace
character) when the pattern matches at the start of `t`. -/
def parseReqIdx (t : List Char) : Option (List Char) :=
  let s := match t with
    | c :: cs => if isUpC c then ([c], cs) else (([] : List Char), t)
    | [] => ([], t)
  let ds := s.2.takeWhile isDigitC
  if ds = [] then none
  else
    let sg := parseSegs (s.2.dropWhile isDigitC)
    match sg.2 with
    | c :: _ => if isWsC c then some (s.1 ++ ds ++ sg.1) else none
    | [] => none

/-- Python `len(id.split("."))`: for any string this is one more than
the number of dots. -/
def countSegs (id : List Char) : Nat := id.count '.' + 1

/-! ## The title splitting patterns of `ComplianceControlNode.title_split_patterns`

Each pattern has the shape `(?s)(.*)BODY`, searched with `re.search`.
Since `(.*)` is greedy and dotall, the search matches at position 0 and
captures in group 1 the longest prefix after which `BODY` matches.  A
`BODY` is modelled as a nondeterministic consumer returning every
possible remainder (mirroring regex backtracking inside the body). -/

/-- Literal text. -/
def mlit (p : List Char) (cs : List Char) : List (List Char) :=
  if p.isPrefixOf cs then [cs.drop p.length] else []

/-- The regex fragment `,?`. -/
def moptComma (cs : List Char) : List (List Char) :=
  match cs with
  | c :: r => if c = ',' then [r, cs] else [cs]
  | [] => [cs]

/-- The regex fragment `\s*`. -/
def mwsStar (cs : List Char) : List (List Char) :=
  (List.range ((cs.takeWhile isWsC).length + 1)).map (cs.drop ·)

/-- Sequencing of two body fragments. -/
def mseq (a b : List Char → List (List Char)) (cs : List Char) : List (List Char) :=
  (a cs).flatMap b

/-- The trailing `\s*\n` shared by all newline-terminated patterns. -/
def bodyNl : List Char → List (List Char) :=
  mseq mwsStar (mlit ['\n'])

/-- Body of `including,? TAIL\s*\n` (patterns 1 and 2). -/
def bodyIncl (tail : String) : List Char → List (List Char) :=
  mseq (mlit "including".toList) (mseq moptComma (mseq (mlit tail.toList) bodyNl))

/-- Body of `,?\s*PHRASE\s*\n` (patterns 3 to 13). -/
def bodyCommaWs (phrase : String) : List Char → List (List Char) :=
  mseq moptComma (mseq mwsStar (mseq (mlit phrase.toList) bodyNl))

/-- Body of the generic colon pattern `:\s*\n` (pattern 14). -/
def bodyColon : List Char → List (List Char) :=
  mseq (mlit [':']) bodyNl

/-- Body of `PCI DSS Reference:\s*` (pattern 15); the trailing `\s*`
matches the empty string, so only the literal matters for matching and
for the captured group. -/
def bodyPci : List Char → List (List Char) :=
  mlit "PCI DSS Reference:".toList

/-- The ordered bodies of `title_split_patterns`. -/
def titleSplitBodies : List (List Char → List (List Char)) :=
  [ bodyIncl " but not limited to failure of:",
    bodyIncl " but not limited to:",
    bodyCommaWs "including mechanisms that are:",
    bodyCommaWs "that meets the following:",
    bodyCommaWs "code changes are:",
    bodyCommaWs "that includes:",
    bodyCommaWs "and includes:",
    bodyCommaWs "and include:",
    bodyCommaWs "as follows:",
    bodyCommaWs "including:",
    bodyCommaWs "such that:",
    bodyCommaWs "are:",
    bodyCommaWs "is:",
    bodyColon,
    bodyPci ]

/-- Does a body match at this position of the text? -/
def bodyAt (body : List Char → List (List Char)) (cs : List Char) : Bool :=
  !(body cs).isEmpty

/-- The greedy group 1 of `re.search(r"(?s)(.*)BODY", t)`: the longest
prefix of `t` after which the body matches. -/
def cutRule (body : List Char → List (List Char)) (t : List Char) : Option (List Char) :=
  ((List.range (t.length + 1)).reverse.find? (fun k => bodyAt body (t.drop k))).map
    (fun k => t.take k)

/-- The loop over `title_split_patterns` in `_parse_id_and_title`:
apply the first pattern that matches and stop. -/
def titleCandidate (t : List Char) : List Char :=
  match titleSplitBodies.findSome? (fun body => cutRule body t) with
  | some g => g
  | none => t

/-- Index of the first pattern that matches (the one whose capture the
loop keeps), if any. -/
def firstRuleIdx (t : List Char) : Option Nat :=
  titleSplitBodies.findIdx? (fun body => (cutRule body t).isSome)

/-- The whitespace normalization tail of `_parse_id_and_title`:
`replace("\n"," ")`, `strip()`, collapse `\s+`, then `,$` to `.`. -/
def cleanTitle (t : List Char) : List Char :=
  commaToDot (collapseWs (stripWs (replNl (titleCandidate t))))

/-- Result of `ComplianceControlNode._parse_id_and_title` on a raw
blob: the optional identifier and the cleaned title. -/
structure ParsedBlob where
  id : Option (List Char)
  title : List Char
deriving DecidableEq

/-- `_parse_id_and_title`: on an all-whitespace blob the method
returns early with no identifier and the empty title; otherwise the
identifier comes from `REQ_INDEX_PATTERN` and the title from the
splitting patterns plus normalization, both applied to the full
stripped text. -/
def parseIdAndTitle (blob : List Char) : ParsedBlob :=
  let text := stripWs blob
  if text = [] then ⟨none, []⟩
  else ⟨parseReqIdx text, cleanTitle text⟩

/-! ## Data model: `ComplianceControlNode` and `ComplianceControlTree`

A node is a rose tree carrying the parsed identifier (absent only for
the synthetic root), the cleaned title, and the `depth` attribute the
code assigns on attachment.  The mutable Python object graph is
modelled by addressing nodes with paths of child indices from the
root; `last_by_depth` maps a depth key to the path of the node most
recently attached at that key (`0` maps to the root path `[]`). -/

inductive RTree where
  | node (ident : Option (List Char)) (title : List Char) (depth : Nat) (kids : List RTree)

def RTree.ident : RTree → Option (List Char)
  | .node i _ _ _ => i

def RTree.title : RTree → List Char
  | .node _ t _ _ => t

def RTree.depth : RTree → Nat
  | .node _ _ d _ => d

def RTree.kids : RTree → List RTree
  | .node _ _ _ k => k

/-- The depth key `len(node.id.split("."))` used by the tree builder
(only ever applied to nodes carrying an identifier). -/
def keyOf (t : RTree) : Nat := countSegs (t.ident.getD [])

/-- Fetch the node at a child-index path. -/
def getAt : List Nat → RTree → Option RTree
  | [], t => some t
  | i :: p, t =>
    match t.kids[i]? with
    | some c => getAt p c
    | none => none

/-- Append a new last child to the node at the given path
(`parent.add_child(node)`). -/
def appendAt : List Nat → RTree → RTree → RTree
  | [], c, .node id ti d ks => .node id ti d (ks ++ [c])
  | i :: p, c, .node id ti d ks => .node id ti d (modList (appendAt p c) i ks)

structure BState where
  root : RTree
  lastByDepth : Nat → Option (List Nat)

/-- The synthetic root built by `ComplianceControlTree.__init__`. -/
def rootNode : RTree := .node none "ROOT".toList 0 []

/-- `ComplianceControlTree.__init__`: fresh root, `last_by_depth = {0: root}`. -/
def initTree : BState :=
  ⟨rootNode, fun k => if k = 0 then some [] else none⟩

/-- `ComplianceControlTree.add_node_from_blob`: parse the blob, skip it
when no identifier was recovered, otherwise attach the node under the
last node seen at `key - 1` (the root when none) and record it as the
last node at `key`.  The inner `none` branch is unreachable: spine
paths always address existing nodes (see `buildTree_wf`). -/
def addNodeFromBlob (st : BState) (blob : List Char) : BState :=
  let pb := parseIdAndTitle blob
  match pb.id with
  | none => st
  | some id =>
    let key := countSegs id
    let pPath := (st.lastByDepth (key - 1)).getD []
    match getAt pPath st.root with
    | none => st
    | some parent =>
      let child : RTree := .node (some id) pb.title (parent.depth + 1) []
      { root := appendAt pPath child st.root,
        lastByDepth := fun k =>
          if k = key then some (pPath ++ [parent.kids.length]) else st.lastByDepth k }

/-- Building the whole tree from an ordered blob list (the loop in
`main`). -/
def buildTree (blobs : List (List Char)) : BState :=
  blobs.foldl addNodeFromBlob initTree

/-! ## Serialization: `to_dict` and the YAML walk -/

/-- Shape of the nested-object (JSON) encoding produced by
`ComplianceControlNode.to_dict`. -/
inductive DObj where
  | mk (id : Option (List Char)) (title : List Char) (children : List DObj)

mutual

def toDict : RTree → DObj
  | .node id ti _ ks => .mk id ti (toDictF ks)

def toDictF : List RTree → List DObj
  | [] => []
  | t :: ts => toDict t :: toDictF ts

end

/-- `ComplianceControlTree.to_dict`: the list of the root children as
dictionaries; the root itself is not emitted. -/
def treeToDict (st : BState) : List DObj := toDictF st.root.kids

mutual

/-- The sequence of nodes for which `YamlFormatter._walk` emits a
record: the node first, then each child subtree in order. -/
def yamlVisit : RTree → List RTree
  | .node id ti d ks => .node id ti d ks :: yamlVisitF ks

def yamlVisitF : List RTree → List RTree
  | [] => []
  | t :: ts => yamlVisit t ++ yamlVisitF ts

end

/-- `YamlFormatter.format`: after the static header it walks each root
child; the root itself is never formatted. -/
def yamlOrder (st : BState) : List RTree := yamlVisitF st.root.kids

mutual

/-- The identifiers of a `to_dict` object in the order in which the
nested-object encoding lists them (each object before its children). -/
def dObjVisit : DObj → List (Option (List Char))
  | .mk id _ cs => id :: dObjVisitF cs

def dObjVisitF : List DObj → List (Option (List Char))
  | [] => []
  | d :: ds => dObjVisit d ++ dObjVisitF ds

end

def dictOrder (st : BState) : List (Option (List Char)) := dObjVisitF (treeToDict st)

/-! ## Identifier-and-shape view used for the round-trip claim -/

inductive Shape where
  | mk (id : Option (List Char)) (children : List Shape)

mutual

def shapeOf : RTree → Shape
  | .node id _ _ ks => .mk id (shapeOfF ks)

def shapeOfF : List RTree → List Shape
  | [] => []
  | t :: ts => shapeOf t :: shapeOfF ts

end

mutual

/-- Depth-first pre-order reconstruction blobs: each node contributes
the blob `identifier + " " + title`. -/
def preBlobs : RTree → List (List Char)
  | .node id ti _ ks => (id.getD [] ++ ' ' :: ti) :: preBlobsF ks

def preBlobsF : List RTree → List (List Char)
  | [] => []
  | t :: ts => preBlobs t ++ preBlobsF ts

end

/-- Rebuild a tree by feeding the reconstructed pre-order blobs of the
root children back through the tree builder. -/
def roundTrip (st : BState) : BState := buildTree (preBlobsF st.root.kids)

/-! ## Blob assembly: `update_list_req` and friends -/

/-- The three phrases of `should_ignore_cell_header`. -/
def headerPhrases : List (List Char) :=
  [ "Customized Approach Objective".toList,
    "Applicability Notes".toList,
    "Defined Approach Requirements".toList ]

/-- Case-insensitive anchored match of one phrase followed by the `\b`
word boundary. -/
def ciMatchHdr : List Char → List Char → Bool
  | [], rest =>
    (match rest with
     | [] => true
     | c :: _ => !isWordC c)
  | _ :: _, [] => false
  | p :: ps, c :: cs => lowerC c == lowerC p && ciMatchHdr ps cs

/-- `should_ignore_cell_header`. -/
def shouldIgnoreCellHeader (t : List Char) : Bool :=
  headerPhrases.any (fun p => ciMatchHdr p t)

/-- `update_list_req`: returns the updated blob list together with the
returned `req_index` (the Python version mutates the list in place). -/
def updateListReq (lst : List (List Char)) (ri : Int) (cell : Option (List Char)) :
    List (List Char) × Int :=
  match cell with
  | none => (lst, ri)
  | some c =>
    let text := stripWs c
    if text = [] then (lst, ri)
    else if shouldIgnoreCellHeader text then (lst, ri)
    else if (parseReqIdx text).isSome then (lst ++ [text], ri + 1)
    else if 0 ≤ ri then (modList (fun old => old ++ ' ' :: text) ri.toNat lst, ri)
    else (lst, ri)

/-- Python `p in s` on strings: contiguous substring test. -/
def containsSub (p : List Char) : List Char → Bool
  | [] => p.isEmpty
  | c :: cs => p.isPrefixOf (c :: cs) || containsSub p cs

/-- The normalized header label of the requirements column. -/
def headerColNormalized : List Char := "requirements and testing procedures".toList

/-- Python `str(c)`, where `None` prints as `"None"`. -/
def cellStr : Option (List Char) → List Char
  | none => "None".toList
  | some s => s

/-- `find_requirements_column_index`. -/
def findRequirementsColumnIndex (table : List (List (Option (List Char)))) : Option Nat :=
  match table with
  | [] => none
  | headerRow :: _ =>
    headerRow.findIdx?
      (fun c => containsSub headerColNormalized ((stripWs (cellStr c)).map lowerC))

/-- One data row of `extract_requirement_blobs`: rows shorter than the
column index contribute the empty cell. -/
def extractRow (colIdx : Nat) (acc : List (List Char) × Int) (row : List (Option (List Char))) :
    List (List Char) × Int :=
  let cell := match row[colIdx]? with
    | some c => c
    | none => some []
  updateListReq acc.1 acc.2 cell

/-- One table of `extract_requirement_blobs`: tables without the
requirements column are skipped, the header row is never data. -/
def extractTable (acc : List (List Char) × Int) (tbl : List (List (Option (List Char)))) :
    List (List Char) × Int :=
  match findRequirementsColumnIndex tbl with
  | none => acc
  | some colIdx => (tbl.drop 1).foldl (extractRow colIdx) acc

/-- `extract_requirement_blobs` together with its final `req_index`. -/
def extractRequirementBlobsState (tables : List (List (List (Option (List Char))))) :
    List (List Char) × Int :=
  tables.foldl extractTable ([], -1)

def extractRequirementBlobs (tables : List (List (List (Option (List Char))))) :
    List (List Char) :=
  (extractRequirementBlobsState tables).1

/-! ## Basic character facts -/

theorem isDigitC_toNat {c : Char} (h : isDigitC c = true) :
    48 ≤ c.toNat ∧ c.toNat ≤ 57 := by
  simpa [isDigitC, Bool.and_eq_true, decide_eq_true_eq] using h

theorem isUpC_toNat {c : Char} (h : isUpC c = true) :
    65 ≤ c.toNat ∧ c.toNat ≤ 90 := by
  simpa [isUpC, Bool.and_eq_true, decide_eq_true_eq] using h

theorem lowerC_of_digit {c : Char} (h : isDigitC c = true) : lowerC c = c := by
  have hb := isDigitC_toNat h
  unfold lowerC
  rw [if_neg]
  omega

/-- A character whose ASCII lower-casing is a lowercase letter cannot
be a digit. -/
theorem not_digit_of_lower_low {c x : Char} (h : lowerC c = x)
    (hx : 97 ≤ x.toNat) : isDigitC c = false := by
  by_contra hne
  have hd : isDigitC c = true := by
    cases hc : isDigitC c
    · exact absurd hc hne
    · rfl
  have hcx : c = x := by rw [← lowerC_of_digit hd, h]
  have hb := isDigitC_toNat hd
  rw [hcx] at hb
  omega

/-! ## The ignore-header phrases never look like identifiers -/

/-- When both the first and the second character fail the digit test,
`REQ_INDEX_PATTERN` cannot match: the required leading `\d+` run is
empty whether or not the optional `[A-Z]` is consumed. -/
theorem parseReqIdx_none_head (c0 c1 : Char) (cs : List Char)
    (h0 : isDigitC c0 = false) (h1 : isDigitC c1 = false) :
    parseReqIdx (c0 :: c1 :: cs) = none := by
  unfold parseReqIdx
  by_cases hu : isUpC c0 = true
  · simp [hu, List.takeWhile_cons, h1]
  · simp at hu
    simp [hu, List.takeWhile_cons, h0]

/-- A case-insensitive match of a phrase of length at least two pins
down the lower-casings of the first two text characters. -/
theorem ciMatchHdr_two {p0 p1 : Char} {ps t : List Char}
    (hm : ciMatchHdr (p0 :: p1 :: ps) t = true) :
    ∃ c0 c1 cs, t = c0 :: c1 :: cs ∧ lowerC c0 = lowerC p0 ∧ lowerC c1 = lowerC p1 := by
  match t with
  | [] => simp [ciMatchHdr] at hm
  | [c0] => simp [ciMatchHdr] at hm
  | c0 :: c1 :: cs =>
    simp only [ciMatchHdr, Bool.and_eq_true, beq_iff_eq] at hm
    exact ⟨c0, c1, cs, rfl, hm.1, hm.2.1⟩

/-- `should_ignore_cell_header` accepting a text implies that
`REQ_INDEX_PATTERN` rejects it: each ignore phrase starts with two
letters, while the identifier pattern needs a digit in the first or
second position. -/
theorem hdr_no_idx (t : List Char) (h : shouldIgnoreCellHeader t = true) :
    parseReqIdx t = none := by
  have hsplit :
      ciMatchHdr "Customized Approach Objective".toList t = true ∨
      ciMatchHdr "Applicability Notes".toList t = true ∨
      ciMatchHdr "Defined Approach Requirements".toList t = true := by
    simpa [shouldIgnoreCellHeader, headerPhrases, List.any_eq_true] using h
  rcases hsplit with hm | hm | hm
  · rw [show "Customized Approach Objective".toList
        = 'C' :: 'u' :: "stomized Approach Objective".toList from rfl] at hm
    obtain ⟨c0, c1, cs, rfl, h0, h1⟩ := ciMatchHdr_two hm
    exact parseReqIdx_none_head _ _ _
      (not_digit_of_lower_low (h0.trans (show lowerC 'C' = 'c' by decide)) (by decide))
      (not_digit_of_lower_low (h1.trans (show lowerC 'u' = 'u' by decide)) (by decide))
  · rw [show "Applicability Notes".toList
        = 'A' :: 'p' :: "plicability Notes".toList from rfl] at hm
    obtain ⟨c0, c1, cs, rfl, h0, h1⟩ := ciMatchHdr_two hm
    exact parseReqIdx_none_head _ _ _
      (not_digit_of_lower_low (h0.trans (show lowerC 'A' = 'a' by decide)) (by decide))
      (not_digit_of_lower_low (h1.trans (show lowerC 'p' = 'p' by decide)) (by decide))
  · rw [show "Defined Approach Requirements".toList
        = 'D' :: 'e' :: "fined Approach Requirements".toList from rfl] at hm
    obtain ⟨c0, c1, cs, rfl, h0, h1⟩ := ciMatchHdr_two hm
    exact parseReqIdx_none_head _ _ _
      (not_digit_of_lower_low (h0.trans (show lowerC 'D' = 'd' by decide)) (by decide))
      (not_digit_of_lower_low (h1.trans (show lowerC 'e' = 'e' by decide)) (by decide))

/-! ## Generic fold and `modList` facts -/

theorem modList_length (f : α → α) (n : Nat) (l : List α) :
    (modList f n l).length = l.length := by
  induction l generalizing n with
  | nil => cases n <;> rfl
  | cons a as ih =>
    cases n with
    | zero => rfl
    | succ m => simpa [modList] using ih m

theorem foldl_pres {β γ : Type} {P : β → Prop} (f : β → γ → β)
    (hstep : ∀ b a, P b → P (f b a)) :
    ∀ (l : List γ) (b : β), P b → P (l.foldl f b)
  | [], _, hb => hb
  | a :: l, b, hb => foldl_pres f hstep l (f b a) (hstep b a hb)

/-! ## Claim C10: the `req_index` / `list_req` length invariant -/

/-- One `update_list_req` call preserves `req_index = len(list_req) - 1`. -/
theorem updateListReq_inv (lst : List (List Char)) (ri : Int) (cell : Option (List Char))
    (h : ri = (lst.length : Int) - 1) :
    (updateListReq lst ri cell).2 = ((updateListReq lst ri cell).1.length : Int) - 1 := by
  cases cell with
  | none => simpa [updateListReq] using h
  | some c =>
    simp only [updateListReq]
    split
    · simpa using h
    · split
      · simpa using h
      · split
        · simp only [List.length_append, List.length_cons, List.length_nil]
          omega
        · split
          · simpa [modList_length] using h
          · simpa using h

/-- C10: starting from `req_index = -1` and the empty blob list, after
every `update_list_req` call the returned index equals
`len(list_req) - 1`; hence the continuation branch always indexes in
bounds, and the state threaded through `extract_requirement_blobs`
keeps the invariant on arbitrary input tables (short rows contribute
empty cells). -/
theorem reqIndexInvariant :
    (∀ (lst : List (List Char)) (ri : Int) (cell : Option (List Char)),
        ri = (lst.length : Int) - 1 →
        (updateListReq lst ri cell).2 = ((updateListReq lst ri cell).1.length : Int) - 1)
    ∧ (∀ (lst : List (List Char)) (ri : Int),
        ri = (lst.length : Int) - 1 → 0 ≤ ri → ri.toNat < lst.length)
    ∧ (∀ tables, (extractRequirementBlobsState tables).2
        = ((extractRequirementBlobsState tables).1.length : Int) - 1) := by
  refine ⟨updateListReq_inv, ?_, ?_⟩
  · intro lst ri h h0
    omega
  · intro tables
    unfold extractRequirementBlobsState
    refine foldl_pres
      (P := fun acc : List (List Char) × Int => acc.2 = (acc.1.length : Int) - 1)
      extractTable ?_ tables ([], -1) (by simp)
    intro acc tbl hP
    unfold extractTable
    split
    · exact hP
    · exact foldl_pres
        (P := fun acc : List (List Char) × Int => acc.2 = (acc.1.length : Int) - 1)
        _ (fun b a hb => updateListReq_inv b.1 b.2 _ hb) _ acc hP

theorem reqIndexInvariant_witness :
    (updateListReq ["1 a".toList] 0 (some "cont".toList)).2
        = ((updateListReq ["1 a".toList] 0 (some "cont".toList)).1.length : Int) - 1
    ∧ (0 : Int).toNat < ["1 a".toList].length
    ∧ (extractRequirementBlobsState
        [[[some "Requirements and Testing Procedures".toList],
          [some "1 Install controls.".toList]]]).2
        = ((extractRequirementBlobsState
        [[[some "Requirements and Testing Procedures".toList],
          [some "1 Install controls.".toList]]]).1.length : Int) - 1 :=
  ⟨reqIndexInvariant.1 ["1 a".toList] 0 (some "cont".toList) (by decide),
   reqIndexInvariant.2.1 ["1 a".toList] 0 (by decide) (by decide),
   reqIndexInvariant.2.2 _⟩

/-! ## Claim C4: the blob boundary behaviour of `update_list_req` -/

/-- C4: for a non-empty, non-header cell: an identifier match always
starts a new blob (even when one is open); otherwise the cell extends
the current blob (the last one) with a single space separator when one
exists, and is discarded when the list is empty. -/
theorem updateListReqCases (lst : List (List Char)) (ri : Int) (s : List Char)
    (hne : stripWs s ≠ []) (hhdr : shouldIgnoreCellHeader (stripWs s) = false)
    (hinv : ri = (lst.length : Int) - 1) :
    ((parseReqIdx (stripWs s)).isSome = true →
        updateListReq lst ri (some s) = (lst ++ [stripWs s], ri + 1))
    ∧ ((parseReqIdx (stripWs s)).isSome = false → lst ≠ [] →
        updateListReq lst ri (some s)
          = (modList (fun old => old ++ ' ' :: stripWs s) (lst.length - 1) lst, ri))
    ∧ ((parseReqIdx (stripWs s)).isSome = false → lst = [] →
        updateListReq lst ri (some s) = (lst, ri)) := by
  refine ⟨?_, ?_, ?_⟩
  · intro hm
    simp only [updateListReq]
    rw [if_neg hne, if_neg (by simp [hhdr]), if_pos (by simp [hm])]
  · intro hm hlst
    have hlen : 1 ≤ lst.length := List.length_pos.mpr hlst
    have h0 : (0 : Int) ≤ ri := by omega
    have htn : ri.toNat = lst.length - 1 := by omega
    simp only [updateListReq]
    rw [if_neg hne, if_neg (by simp [hhdr]), if_neg (by simp [hm]), if_pos h0, htn]
  · intro hm hlst
    subst hlst
    have h0 : ¬ (0 : Int) ≤ ri := by simp at hinv; omega
    simp only [updateListReq]
    rw [if_neg hne, if_neg (by simp [hhdr]), if_neg (by simp [hm]), if_neg h0]

theorem updateListReqCases_witness :
    updateListReq ["1 a".toList] 0 (some "2 b".toList)
      = (["1 a".toList, "2 b".toList], 1) :=
  ((updateListReqCases ["1 a".toList] 0 "2 b".toList (by decide) (by decide)
      (by decide)).1 (by decide)).trans (by decide)

/-! ## Claim C9: the boundary matcher and the extraction matcher agree -/

/-- C9: `update_list_req` opens a new blob on a cell exactly when
`_parse_id_and_title` recovers an identifier from the same string
(both go through `REQ_INDEX_PATTERN` on the stripped text; empty and
ignored header cells can never match the identifier pattern). -/
theorem blobBoundaryConsistency (s : List Char) (lst : List (List Char)) (ri : Int) :
    ((updateListReq lst ri (some s)).2 = ri + 1)
      ↔ (parseIdAndTitle s).id.isSome = true := by
  simp only [updateListReq, parseIdAndTitle]
  by_cases h1 : stripWs s = []
  · simp [h1]
  · by_cases hh : shouldIgnoreCellHeader (stripWs s) = true
    · rw [if_neg h1, if_pos (by simp [hh])]
      simp [h1, hdr_no_idx _ hh]
    · by_cases hm : (parseReqIdx (stripWs s)).isSome = true
      · rw [if_neg h1, if_neg (by simp [hh]), if_pos (by simp [hm])]
        simp [h1, hm]
      · rw [if_neg h1, if_neg (by simp [hh]), if_neg (by simp [hm])]
        by_cases h0 : (0 : Int) ≤ ri
        · rw [if_pos h0]
          simp [h1, hm]
        · rw [if_neg h0]
          simp [h1, hm]

/-! ## Structural facts about the identifier scanner -/

theorem segsAux_append : ∀ (m : Bool) (r : List Char),
    (segsAux m r).1 ++ (segsAux m r).2 = r
  | _, [] => by simp [segsAux]
  | false, [c] => by rw [segsAux.eq_2]; split <;> simp
  | false, c :: c2 :: r2 => by
    rw [segsAux.eq_3]
    split
    · split
      · simpa using segsAux_append true r2
      · simp
    · simp
  | true, [c] => by
    rw [segsAux.eq_4]
    split
    · simpa using segsAux_append true ([] : List Char)
    · split <;> simp
  | true, c :: c2 :: r2 => by
    rw [segsAux.eq_5]
    split
    · simpa using segsAux_append true (c2 :: r2)
    · split
      · split
        · simpa using segsAux_append true r2
        · simp
      · simp

theorem isWsC_toNat_le {c : Char} (h : isWsC c = true) : c.toNat ≤ 32 := by
  simp only [isWsC, Bool.or_eq_true, beq_iff_eq] at h
  rcases h with ((((h | h) | h) | h) | h) | h
  · subst h; decide
  · subst h; decide
  · subst h; decide
  · subst h; decide
  · have : c.toNat = 11 := by simpa using h
    omega
  · have : c.toNat = 12 := by simpa using h
    omega

theorem not_ws_of_toNat {c : Char} (h : 33 ≤ c.toNat) : isWsC c = false := by
  cases hw : isWsC c
  · rfl
  · have := isWsC_toNat_le hw
    omega

theorem digit_not_ws {c : Char} (h : isDigitC c = true) : isWsC c = false :=
  not_ws_of_toNat (by have := isDigitC_toNat h; omega)

theorem up_not_ws {c : Char} (h : isUpC c = true) : isWsC c = false :=
  not_ws_of_toNat (by have := isUpC_toNat h; omega)

theorem dot_not_ws : isWsC '.' = false := by decide


theorem segsAux_chars : ∀ (m : Bool) (r : List Char) (a : Char),
    a ∈ (segsAux m r).1 → a = '.' ∨ isDigitC a = true
  | _, [], a => by simp [segsAux]
  | false, [c], a => by rw [segsAux.eq_2]; split <;> simp
  | false, c :: c2 :: r2, a => by
    intro ha
    rw [segsAux.eq_3] at ha
    by_cases hc : c = '.'
    · rw [if_pos hc] at ha
      by_cases hd : isDigitC c2 = true
      · rw [if_pos hd] at ha
        simp only [List.mem_cons] at ha
        rcases ha with rfl | rfl | ha
        · exact Or.inl hc
        · exact Or.inr hd
        · exact segsAux_chars true r2 a ha
      · rw [if_neg hd] at ha
        simp at ha
    · rw [if_neg hc] at ha
      simp at ha
  | true, [c], a => by
    intro ha
    rw [segsAux.eq_4] at ha
    by_cases hd : isDigitC c = true
    · rw [if_pos hd] at ha
      simp only [List.mem_cons] at ha
      rcases ha with rfl | ha
      · exact Or.inr hd
      · exact segsAux_chars true ([] : List Char) a ha
    · rw [if_neg hd] at ha
      split at ha <;> simp at ha
  | true, c :: c2 :: r2, a => by
    intro ha
    rw [segsAux.eq_5] at ha
    by_cases hd : isDigitC c = true
    · rw [if_pos hd] at ha
      simp only [List.mem_cons] at ha
      rcases ha with rfl | ha
      · exact Or.inr hd
      · exact segsAux_chars true (c2 :: r2) a ha
    · rw [if_neg hd] at ha
      by_cases hc : c = '.'
      · rw [if_pos hc] at ha
        by_cases hd2 : isDigitC c2 = true
        · rw [if_pos hd2] at ha
          simp only [List.mem_cons] at ha
          rcases ha with rfl | rfl | ha
          · exact Or.inl hc
          · exact Or.inr hd2
          · exact segsAux_chars true r2 a ha
        · rw [if_neg hd2] at ha
          simp at ha
      · rw [if_neg hc] at ha
        simp at ha



theorem parseReqIdx_cons_up {c0 : Char} (cs : List Char) (hu : isUpC c0 = true) :
    parseReqIdx (c0 :: cs) =
      (if cs.takeWhile isDigitC = [] then none
       else
         match (parseSegs (cs.dropWhile isDigitC)).2 with
         | c :: _ =>
           if isWsC c then
             some ([c0] ++ cs.takeWhile isDigitC ++ (parseSegs (cs.dropWhile isDigitC)).1)
           else none
         | [] => none) := by
  simp [parseReqIdx, hu]

theorem parseReqIdx_cons_low {c0 : Char} (cs : List Char) (hu : isUpC c0 = false) :
    parseReqIdx (c0 :: cs) =
      (if (c0 :: cs).takeWhile isDigitC = [] then none
       else
         match (parseSegs ((c0 :: cs).dropWhile isDigitC)).2 with
         | c :: _ =>
           if isWsC c then
             some ((c0 :: cs).takeWhile isDigitC ++ (parseSegs ((c0 :: cs).dropWhile isDigitC)).1)
           else none
         | [] => none) := by
  simp [parseReqIdx, hu]



/-- Shape of a successful `REQ_INDEX_PATTERN` match: the text starts
with the identifier token (letter, digits and dots only, hence no
whitespace) followed by a whitespace character. -/
theorem parseReqIdx_shape {t id : List Char} (h : parseReqIdx t = some id) :
    ∃ c rest, t = id ++ c :: rest ∧ isWsC c = true ∧ id ≠ []
      ∧ ∀ a ∈ id, isWsC a = false := by
  cases t with
  | nil => simp [parseReqIdx] at h
  | cons c0 cs =>
    by_cases hu : isUpC c0 = true
    · rw [parseReqIdx_cons_up cs hu] at h
      by_cases hds : cs.takeWhile isDigitC = []
      · rw [if_pos hds] at h; exact absurd h (by simp)
      · rw [if_neg hds] at h
        rcases hrem : (parseSegs (cs.dropWhile isDigitC)).2 with _ | ⟨c, rest⟩
        · rw [hrem] at h; exact absurd h (by simp)
        · rw [hrem] at h
          dsimp only at h
          by_cases hws : isWsC c = true
          · rw [if_pos hws] at h
            simp only [Option.some.injEq] at h
            subst h
            refine ⟨c, rest, ?_, hws, by simp, ?_⟩
            · have h2 : (parseSegs (cs.dropWhile isDigitC)).1
                  ++ (parseSegs (cs.dropWhile isDigitC)).2 = cs.dropWhile isDigitC :=
                segsAux_append false _
              rw [hrem] at h2
              have h1 : cs.takeWhile isDigitC ++ cs.dropWhile isDigitC = cs :=
                List.takeWhile_append_dropWhile _ _
              simp only [List.singleton_append, List.cons_append, List.append_assoc,
                List.cons.injEq, true_and]
              rw [h2, h1]
              simp
            · intro a ha
              rcases List.mem_append.mp ha with h01 | hsg
              · rcases List.mem_append.mp h01 with h0 | h1d
                · have ha0 : a = c0 := by simpa using h0
                  subst ha0
                  exact up_not_ws hu
                · exact digit_not_ws (List.mem_takeWhile_imp h1d)
              · rcases segsAux_chars false _ a hsg with hd | hd
                · subst hd; exact dot_not_ws
                · exact digit_not_ws hd
          · rw [if_neg hws] at h; exact absurd h (by simp)
    · have hu2 : isUpC c0 = false := by simpa using hu
      rw [parseReqIdx_cons_low cs hu2] at h
      by_cases hds : (c0 :: cs).takeWhile isDigitC = []
      · rw [if_pos hds] at h; exact absurd h (by simp)
      · rw [if_neg hds] at h
        rcases hrem : (parseSegs ((c0 :: cs).dropWhile isDigitC)).2 with _ | ⟨c, rest⟩
        · rw [hrem] at h; exact absurd h (by simp)
        · rw [hrem] at h
          dsimp only at h
          by_cases hws : isWsC c = true
          · rw [if_pos hws] at h
            simp only [Option.some.injEq] at h
            subst h
            refine ⟨c, rest, ?_, hws, by simp [hds], ?_⟩
            · have h2 : (parseSegs ((c0 :: cs).dropWhile isDigitC)).1
                  ++ (parseSegs ((c0 :: cs).dropWhile isDigitC)).2
                  = (c0 :: cs).dropWhile isDigitC := segsAux_append false _
              rw [hrem] at h2
              have h1 : (c0 :: cs).takeWhile isDigitC ++ (c0 :: cs).dropWhile isDigitC
                  = c0 :: cs := List.takeWhile_append_dropWhile _ _
              rw [List.append_assoc, h2, h1]
            · intro a ha
              rcases List.mem_append.mp ha with hin | hin
              · exact digit_not_ws (List.mem_takeWhile_imp hin)
              · rcases segsAux_chars false _ a hin with hd | hd
                · subst hd; exact dot_not_ws
                · exact digit_not_ws hd

          · rw [if_neg hws] at h
            exact absurd h (by simp)

theorem parseReqIdx_sample_plain : parseReqIdx "1 x".toList = some ['1'] := by decide
theorem parseReqIdx_sample_letter : parseReqIdx "A1.2 x".toList = some "A1.2".toList := by
  decide
theorem parseReqIdx_sample_stuck : parseReqIdx "1.2x ".toList = none := by decide
theorem parseReqIdx_sample_word : parseReqIdx "Install 1".toList = none := by decide
theorem parseIdAndTitle_sample :
    (parseIdAndTitle "1 Foo, including, but not limited to:\nbar".toList).title
      = "1 Foo.".toList := by decide

/-! ## Normalization lemmas for the cleaned title -/

theorem map_id_of_mem {f : α → α} : ∀ {l : List α}, (∀ a ∈ l, f a = a) → l.map f = l
  | [], _ => rfl
  | a :: l, h => by
    rw [List.map_cons, h a (by simp), map_id_of_mem (fun b hb => h b (by simp [hb]))]

theorem replNl_append (a b : List Char) : replNl (a ++ b) = replNl a ++ replNl b := by
  simp [replNl]

theorem isWsC_nl : isWsC '\n' = true := by decide

theorem replNl_of_not_ws {a : List Char} (h : ∀ c ∈ a, isWsC c = false) :
    replNl a = a := by
  refine map_id_of_mem ?_
  intro c hc
  have hne : ¬ c = '\n' := by
    intro he
    subst he
    exact absurd (h '\n' hc) (by decide)
  simp [hne]

/-- The character map of `replNl` preserves whitespace-ness. -/
theorem replNl_ws (c : Char) :
    isWsC (if c == '\n' then ' ' else c) = isWsC c := by
  by_cases h : c = '\n'
  · subst h; decide
  · simp [h]

theorem dropWhile_head_false {p : α → Bool} {l : List α} {a : α}
    (h : (l.dropWhile p).head? = some a) : p a = false := by
  have hd := List.head?_dropWhile_not p l
  rw [h] at hd
  exact hd

theorem dropWhile_eq_self_of_head {p : α → Bool} :
    ∀ {l : List α}, (∀ a, l.head? = some a → p a = false) → l.dropWhile p = l
  | [], _ => rfl
  | a :: l, h => by
    rw [List.dropWhile_cons, h a rfl]
    simp

theorem stripWs_eq_self {t : List Char}
    (h1 : ∀ c, t.head? = some c → isWsC c = false)
    (h2 : ∀ c, t.getLast? = some c → isWsC c = false) :
    stripWs t = t := by
  unfold stripWs
  rw [dropWhile_eq_self_of_head h1]
  rw [dropWhile_eq_self_of_head
      (fun c hc => h2 c (by rw [← List.head?_reverse]; exact hc))]
  simp

/-- The last character of a stripped string is never whitespace. -/
theorem stripWs_getLast_not_ws {t : List Char} {c : Char}
    (h : (stripWs t).getLast? = some c) : isWsC c = false := by
  unfold stripWs at h
  rw [List.getLast?_reverse] at h
  exact dropWhile_head_false h

theorem collapseWsAux_append {u : List Char} (h : ∀ a ∈ u, isWsC a = false) :
    ∀ x, collapseWsAux false (u ++ x) = u ++ collapseWsAux false x := by
  induction u with
  | nil => intro x; rfl
  | cons a l ih =>
    intro x
    have ha : isWsC a = false := h a (by simp)
    simp only [List.cons_append, collapseWsAux, ha, Bool.false_eq_true, if_false]
    exact congrArg (fun z => a :: z) (ih (fun b hb => h b (by simp [hb])) x)

theorem commaToDot_append {a b : List Char} (hb : b ≠ []) :
    commaToDot (a ++ b) = a ++ commaToDot b := by
  unfold commaToDot
  rw [List.getLast?_append_of_ne_nil _ hb]
  by_cases hc : b.getLast? = some ','
  · rw [if_pos hc, if_pos hc, List.dropLast_append_of_ne_nil _ hb, List.append_assoc]
  · rw [if_neg hc, if_neg hc]

/-- When no pattern index is found, no pattern captures, so the loop
leaves the candidate unchanged. -/
theorem findSome?_none_of_findIdx?_none {t : List Char} :
    ∀ (l : List (List Char → List (List Char))),
      l.findIdx? (fun b => (cutRule b t).isSome) = none →
      l.findSome? (fun b => cutRule b t) = none
  | [], _ => rfl
  | b :: l, h => by
    rw [List.findIdx?_cons] at h
    by_cases hb : (cutRule b t).isSome = true
    · simp [hb] at h
    · have hnone : cutRule b t = none := by
        cases hcb : cutRule b t
        · rfl
        · rw [hcb] at hb
          simp at hb
      have htail : l.findIdx? (fun b => (cutRule b t).isSome) = none := by
        rw [if_neg (by simp [hb])] at h
        simpa using h
      rw [List.findSome?_cons, hnone]
      exact findSome?_none_of_findIdx?_none l htail

theorem titleCandidate_of_none {t : List Char} (h : firstRuleIdx t = none) :
    titleCandidate t = t := by
  unfold firstRuleIdx at h
  unfold titleCandidate
  rw [findSome?_none_of_findIdx?_none _ h]

/-! ## Claim C5: priority of the title splitting patterns -/

/-- C5: the splitting patterns are evaluated in their fixed order and
only the first matching one fires.  On any text matched by the
specific pattern 2 (`including, but not limited to:` newline
terminated) and by the generic colon pattern 14, the applied rule is
pattern 1 or pattern 2, its capture becomes the title candidate, and
the generic colon rule never determines the cut. -/
theorem titleCutPriority (t : List Char)
    (hspec : (cutRule (bodyIncl " but not limited to:") t).isSome = true)
    (_hgen : (cutRule bodyColon t).isSome = true) :
    ∃ i g, (i = 0 ∨ i = 1) ∧ firstRuleIdx t = some i
      ∧ cutRule (titleSplitBodies.getD i bodyColon) t = some g
      ∧ titleCandidate t = g := by
  by_cases h0 : (cutRule (bodyIncl " but not limited to failure of:") t).isSome = true
  · obtain ⟨g, hg⟩ := Option.isSome_iff_exists.mp h0
    refine ⟨0, g, Or.inl rfl, ?_, ?_, ?_⟩
    · simp [firstRuleIdx, titleSplitBodies, List.findIdx?_cons, h0]
    · simpa [titleSplitBodies] using hg
    · simp [titleCandidate, titleSplitBodies, List.findSome?_cons, hg]
  · obtain ⟨g, hg⟩ := Option.isSome_iff_exists.mp hspec
    have h0n : cutRule (bodyIncl " but not limited to failure of:") t = none := by
      cases hc : cutRule (bodyIncl " but not limited to failure of:") t
      · rfl
      · rw [hc] at h0
        simp at h0
    refine ⟨1, g, Or.inr rfl, ?_, ?_, ?_⟩
    · simp [firstRuleIdx, titleSplitBodies, List.findIdx?_cons, h0n, hspec]
    · simpa [titleSplitBodies] using hg
    · simp [titleCandidate, titleSplitBodies, List.findSome?_cons, h0n, hg]

theorem titleCutPriority_witness :
    ∃ i g, (i = 0 ∨ i = 1)
      ∧ firstRuleIdx "1 Stuff, including, but not limited to:\nitems".toList = some i
      ∧ cutRule (titleSplitBodies.getD i bodyColon)
          "1 Stuff, including, but not limited to:\nitems".toList = some g
      ∧ titleCandidate "1 Stuff, including, but not limited to:\nitems".toList = g :=
  titleCutPriority "1 Stuff, including, but not limited to:\nitems".toList
    (by decide) (by decide)

/-! ## Claim C1: the computed title keeps the identifier token -/

/-- C1 counterexample: for the scenario blob the computed title keeps
the identifier and the entire cut phrase (the phrase is not followed
by a newline, so no pattern fires); it is not the claimed
post-identifier text `"Do the thing"`. -/
theorem titleAfterIdentifier_cex :
    (parseIdAndTitle
        "2 Do the thing, including, but not limited to: sub-detail here".toList).title
      = "2 Do the thing, including, but not limited to: sub-detail here".toList
    ∧ ¬ (parseIdAndTitle
        "2 Do the thing, including, but not limited to: sub-detail here".toList).title
      = "Do the thing".toList :=
  ⟨by decide, by decide⟩

theorem getLast_mem_ne_nil {l : List α} {c : α} (h : l.getLast? = some c) : l ≠ [] := by
  intro he
  subst he
  simp at h

/-- C1 amended: the title of a node is computed from the entire
stripped blob, identifier token included.  When no splitting pattern
matches: the title is the whitespace-normalized full text, and when an
identifier was recovered, the identifier followed by a space is a
prefix of the title (so the title is not the post-identifier text); in
particular the scenario blob keeps its whole text because its cut
phrase is not newline-terminated. -/
theorem titleKeepsIdentifier :
    (∀ blob : List Char, firstRuleIdx (stripWs blob) = none → stripWs blob ≠ [] →
        (parseIdAndTitle blob).title
          = commaToDot (collapseWs (stripWs (replNl (stripWs blob)))))
    ∧ (∀ (blob id : List Char), firstRuleIdx (stripWs blob) = none →
        parseReqIdx (stripWs blob) = some id →
        (id ++ [' ']).isPrefixOf (parseIdAndTitle blob).title = true)
    ∧ (parseIdAndTitle
        "2 Do the thing, including, but not limited to: sub-detail here".toList).title
      = "2 Do the thing, including, but not limited to: sub-detail here".toList := by
  have part1 : ∀ blob : List Char, firstRuleIdx (stripWs blob) = none →
      stripWs blob ≠ [] →
      (parseIdAndTitle blob).title
        = commaToDot (collapseWs (stripWs (replNl (stripWs blob)))) := by
    intro blob hnone hne
    unfold parseIdAndTitle
    rw [if_neg hne]
    unfold cleanTitle
    rw [titleCandidate_of_none hnone]
  refine ⟨part1, ?_, by decide⟩
  intro blob id hnone hid
  obtain ⟨c, rest, htext, hws, hidne, hchars⟩ := parseReqIdx_shape hid
  have htitle := part1 blob hnone (by rw [htext]; simp [hidne])
  rw [htitle]
  -- replNl leaves the identifier alone and keeps the separator whitespace
  have hrepl : replNl (stripWs blob)
      = id ++ (if c == '\n' then ' ' else c) :: replNl rest := by
    rw [htext, replNl_append, replNl_of_not_ws hchars]
    rfl
  -- the stripped text is already stripped, so is its newline image
  have hstrip : stripWs (replNl (stripWs blob)) = replNl (stripWs blob) := by
    refine stripWs_eq_self ?_ ?_
    · intro d hd
      rw [hrepl] at hd
      cases id with
      | nil => exact absurd rfl hidne
      | cons a0 id2 =>
        rw [List.cons_append, List.head?_cons] at hd
        have hda : a0 = d := by simpa using hd
        rw [← hda]
        exact hchars a0 (by simp)
    · intro d hd
      unfold replNl at hd
      rw [List.getLast?_map] at hd
      rcases hlast : (stripWs blob).getLast? with _ | cl
      · rw [hlast] at hd
        simp at hd
      · rw [hlast] at hd
        have hfd : (if cl == '\n' then ' ' else cl) = d := by simpa using hd
        rw [← hfd, replNl_ws]
        exact stripWs_getLast_not_ws hlast
  rw [hstrip, hrepl]
  -- collapse the whitespace: the identifier passes through untouched
  unfold collapseWs
  rw [collapseWsAux_append hchars]
  have hcws : isWsC (if c == '\n' then ' ' else c) = true := by
    rw [replNl_ws]
    exact hws
  rw [show collapseWsAux false ((if c == '\n' then ' ' else c) :: replNl rest)
      = ' ' :: collapseWsAux true (replNl rest) by
    simp only [collapseWsAux, hcws, if_true]
    rfl]
  rw [commaToDot_append (by simp)]
  -- the normalized tail still starts with the separating space
  rcases hz : collapseWsAux true (replNl rest) with _ | ⟨z0, zs⟩
  · simp [commaToDot]
  · by_cases hcomma : ((' ' : Char) :: z0 :: zs).getLast? = some ','
    · rw [show commaToDot (' ' :: z0 :: zs) = ' ' :: commaToDot (z0 :: zs) from by
        unfold commaToDot
        rw [show ((' ' : Char) :: z0 :: zs).getLast? = (z0 :: zs).getLast? from by simp,
          show ((' ' : Char) :: z0 :: zs).dropLast = ' ' :: (z0 :: zs).dropLast from by
            simp [List.dropLast]]
        split <;> simp]
      rw [List.isPrefixOf_iff_prefix]
      exact ⟨commaToDot (z0 :: zs), by simp⟩
    · rw [show commaToDot (' ' :: z0 :: zs) = ' ' :: z0 :: zs from by
        unfold commaToDot
        rw [if_neg hcomma]]
      rw [List.isPrefixOf_iff_prefix]
      exact ⟨z0 :: zs, by simp⟩

theorem titleKeepsIdentifier_witness :
    (parseIdAndTitle "1 Install and maintain network security controls.".toList).title
      = "1 Install and maintain network security controls.".toList
    ∧ (("1".toList ++ [' ']).isPrefixOf
        (parseIdAndTitle "1 Install and maintain network security controls.".toList).title)
      = true :=
  ⟨(titleKeepsIdentifier.1 "1 Install and maintain network security controls.".toList
      (by decide) (by decide)).trans (by decide),
   titleKeepsIdentifier.2.1 "1 Install and maintain network security controls.".toList
      "1".toList (by decide) (by decide)⟩

/-! ## Claim C6: unparseable blobs leave the tree unchanged -/

theorem addNodeFromBlob_skip {st : BState} {b : List Char}
    (h : (parseIdAndTitle b).id = none) : addNodeFromBlob st b = st := by
  simp only [addNodeFromBlob, h]

/-- C6: a blob whose stripped text has no recognized identifier token
contributes nothing: the step is the identity on the whole state (tree
and rightmost-spine index), and building from any blob list equals
building from its valid sublist, so dropped blobs cannot affect the
sibling order of nodes built from later valid blobs. -/
theorem unparseableBlobDropped :
    (∀ (st : BState) (b : List Char), (parseIdAndTitle b).id = none →
        addNodeFromBlob st b = st)
    ∧ ∀ blobs : List (List Char),
        buildTree blobs
          = buildTree (blobs.filter (fun b => (parseIdAndTitle b).id.isSome)) := by
  refine ⟨fun _ _ h => addNodeFromBlob_skip h, ?_⟩
  have hfold : ∀ (blobs : List (List Char)) (st : BState),
      blobs.foldl addNodeFromBlob st
        = (blobs.filter (fun b => (parseIdAndTitle b).id.isSome)).foldl
            addNodeFromBlob st := by
    intro blobs
    induction blobs with
    | nil => intro st; rfl
    | cons b bs ih =>
      intro st
      by_cases hb : (parseIdAndTitle b).id.isSome = true
      · rw [List.foldl_cons, List.filter_cons_of_pos (by simpa using hb),
          List.foldl_cons, ih]
      · have hnone : (parseIdAndTitle b).id = none := by
          cases hc : (parseIdAndTitle b).id
          · rfl
          · rw [hc] at hb
            simp at hb
        rw [List.foldl_cons, addNodeFromBlob_skip hnone,
          List.filter_cons_of_neg (by simpa using hb), ih]
  exact fun blobs => hfold blobs initTree

theorem unparseableBlobDropped_witness :
    addNodeFromBlob initTree "no identifier".toList = initTree :=
  unparseableBlobDropped.1 initTree "no identifier".toList (by decide)

/-! ## Path algebra for the functional tree -/

theorem RTree.eta : ∀ n : RTree, RTree.node n.ident n.title n.depth n.kids = n
  | .node _ _ _ _ => rfl

theorem getAt_append : ∀ (p q : List Nat) (t : RTree),
    getAt (p ++ q) t = (getAt p t).bind (getAt q)
  | [], q, t => by simp [getAt]
  | i :: p, q, t => by
    simp only [List.cons_append, getAt]
    cases t.kids[i]? with
    | none => rfl
    | some c => exact getAt_append p q c

theorem modList_get (f : α → α) : ∀ (j i : Nat) (l : List α),
    (modList f j l)[i]? = if i = j then (l[i]?).map f else l[i]?
  | _, _, [] => by simp [modList]
  | 0, 0, a :: as => by simp [modList]
  | 0, i + 1, a :: as => by simp [modList]
  | j + 1, 0, a :: as => by simp [modList]
  | j + 1, i + 1, a :: as => by
    simp only [modList, List.getElem?_cons_succ]
    rw [modList_get f j i as]
    by_cases h : i = j <;> simp [h]

/-- Appending somewhere in the tree does not disturb other nodes: any
node reachable before is reachable at the same path afterwards, with
the same identifier, title and depth; only the node at the append path
gains the new child. -/
theorem getAt_appendAt : ∀ (p q : List Nat) (c t n : RTree),
    getAt q t = some n →
    ∃ n', getAt q (appendAt p c t) = some n'
      ∧ n'.ident = n.ident ∧ n'.title = n.title ∧ n'.depth = n.depth
      ∧ ((q = p ∧ n'.kids = n.kids ++ [c]) ∨ (q ≠ p ∧ n'.kids.length = n.kids.length))
  | [], [], c, .node id ti d ks, n, h => by
    simp only [getAt, Option.some.injEq] at h
    subst h
    exact ⟨_, rfl, rfl, rfl, rfl, Or.inl ⟨rfl, rfl⟩⟩
  | [], i :: q', c, .node id ti d ks, n, h => by
    simp only [getAt, RTree.kids] at h ⊢
    cases hk : ks[i]? with
    | none => rw [hk] at h; exact absurd h (by simp)
    | some ch =>
      rw [hk] at h
      have hilt : i < ks.length := by
        by_contra hge
        rw [List.getElem?_eq_none (by omega)] at hk
        exact absurd hk (by simp)
      refine ⟨n, ?_, rfl, rfl, rfl, Or.inr ⟨by simp, rfl⟩⟩
      simp only [appendAt, getAt, RTree.kids]
      rw [show (ks ++ [c])[i]? = ks[i]? from by simp [List.getElem?_append, hilt], hk]
      exact h
  | j :: p', [], c, .node id ti d ks, n, h => by
    simp only [getAt, Option.some.injEq] at h
    subst h
    refine ⟨_, rfl, rfl, rfl, rfl, Or.inr ⟨by simp, ?_⟩⟩
    simp [appendAt, RTree.kids, modList_length]
  | j :: p', i :: q', c, .node id ti d ks, n, h => by
    simp only [getAt, RTree.kids] at h
    cases hk : ks[i]? with
    | none => rw [hk] at h; exact absurd h (by simp)
    | some ch =>
      rw [hk] at h
      by_cases hij : i = j
      · subst hij
        obtain ⟨n', hn', hi, ht, hd, hcase⟩ := getAt_appendAt p' q' c ch n h
        refine ⟨n', ?_, hi, ht, hd, ?_⟩
        · simp only [appendAt, getAt, RTree.kids]
          rw [modList_get, if_pos rfl, hk]
          simpa using hn'
        · rcases hcase with ⟨he, hkids⟩ | ⟨hne, hlen⟩
          · exact Or.inl ⟨by rw [he], hkids⟩
          · exact Or.inr ⟨by simp [hne], hlen⟩
      · refine ⟨n, ?_, rfl, rfl, rfl, Or.inr ⟨by simp [hij], rfl⟩⟩
        simp only [appendAt, getAt, RTree.kids]
        rw [modList_get, if_neg hij, hk]
        exact h

/-! ## The cleaned title always keeps a printable character

This backs the tree invariant used by the round-trip analysis: a node
whose blob parsed to an identifier has a title containing at least one
non-whitespace character (so the reconstructed blob re-parses). -/

theorem mlit_ne_head {p0 c0 : Char} (hne : ¬ p0 = c0) (ps rest : List Char) :
    mlit (p0 :: ps) (c0 :: rest) = [] := by
  have hpre : (p0 :: ps).isPrefixOf (c0 :: rest) = false := by
    simp [List.isPrefixOf, hne]
  simp [mlit, hpre]

theorem mlit_ne_two {p0 p1 c0 c1 : Char} (hne : ¬ p1 = c1) (ps rest : List Char) :
    mlit (p0 :: p1 :: ps) (c0 :: c1 :: rest) = [] := by
  have hpre : (p0 :: p1 :: ps).isPrefixOf (c0 :: c1 :: rest) = false := by
    simp only [List.isPrefixOf]
    simp [hne]
  simp [mlit, hpre]

theorem moptComma_head {c0 : Char} (h : ¬ c0 = ',') (rest : List Char) :
    moptComma (c0 :: rest) = [c0 :: rest] := by
  simp [moptComma, h]

theorem mwsStar_head {c0 : Char} (h : isWsC c0 = false) (rest : List Char) :
    mwsStar (c0 :: rest) = [c0 :: rest] := by
  simp [mwsStar, List.takeWhile_cons, h, List.range_succ]

/-- A character that can start an identifier (digit or uppercase) is
distinct from any character outside both ranges. -/
theorem idhead_ne {c0 x : Char} (h : isDigitC c0 = true ∨ isUpC c0 = true)
    (hx : ¬ (48 ≤ x.toNat ∧ x.toNat ≤ 57) ∧ ¬ (65 ≤ x.toNat ∧ x.toNat ≤ 90)) :
    ¬ x = c0 := by
  intro he
  subst he
  rcases h with h | h
  · exact absurd (isDigitC_toNat h) hx.1
  · exact absurd (isUpC_toNat h) hx.2

theorem idhead_not_ws {c0 : Char} (h : isDigitC c0 = true ∨ isUpC c0 = true) :
    isWsC c0 = false := by
  rcases h with h | h
  · exact digit_not_ws h
  · exact up_not_ws h

/-- A successful identifier match starts with a digit, or with an
uppercase letter followed by a digit. -/
theorem parse_head_two {t id : List Char} (h : parseReqIdx t = some id) :
    ∃ c0 rest, t = c0 :: rest
      ∧ (isDigitC c0 = true ∨ isUpC c0 = true)
      ∧ (isDigitC c0 = false → ∃ c1 r2, rest = c1 :: r2 ∧ isDigitC c1 = true) := by
  cases t with
  | nil => simp [parseReqIdx] at h
  | cons c0 cs =>
    by_cases hu : isUpC c0 = true
    · rw [parseReqIdx_cons_up cs hu] at h
      by_cases hds : cs.takeWhile isDigitC = []
      · rw [if_pos hds] at h
        exact absurd h (by simp)
      · refine ⟨c0, cs, rfl, Or.inr hu, ?_⟩
        intro _
        cases cs with
        | nil => exact absurd rfl hds
        | cons c1 cs' =>
          refine ⟨c1, cs', rfl, ?_⟩
          by_contra hnd
          rw [List.takeWhile_cons] at hds
          simp only [Bool.not_eq_true] at hnd
          rw [hnd] at hds
          simp at hds
    · have hu2 : isUpC c0 = false := by simpa using hu
      rw [parseReqIdx_cons_low cs hu2] at h
      by_cases hds : (c0 :: cs).takeWhile isDigitC = []
      · rw [if_pos hds] at h
        exact absurd h (by simp)
      · have hd0 : isDigitC c0 = true := by
          by_contra hnd
          rw [List.takeWhile_cons] at hds
          simp only [Bool.not_eq_true] at hnd
          rw [hnd] at hds
          simp at hds
        exact ⟨c0, cs, rfl, Or.inl hd0, fun hno => absurd hd0 (by simp [hno])⟩

/-- No splitting-pattern body matches at position 0 of a text that
begins with an identifier token. -/
theorem bodies_at_head_none {t id : List Char} (hid : parseReqIdx t = some id) :
    ∀ body ∈ titleSplitBodies, body t = [] := by
  obtain ⟨c0, rest, rfl, hd0, htwo⟩ := parse_head_two hid
  have hws : isWsC c0 = false := idhead_not_ws hd0
  have hcomma : ¬ c0 = ',' := fun he => idhead_ne hd0 (by decide) he.symm
  have hi : ¬ ('i' : Char) = c0 := idhead_ne hd0 (by decide)
  have hincl : ∀ tail : String, bodyIncl tail (c0 :: rest) = [] := by
    intro tail
    unfold bodyIncl
    rw [mseq, show "including".toList = 'i' :: "ncluding".toList from rfl,
      mlit_ne_head hi _ _]
    rfl
  have hcw : ∀ (phrase : String) (p0 : Char) (ps : List Char),
      phrase.toList = p0 :: ps →
      (¬ (48 ≤ p0.toNat ∧ p0.toNat ≤ 57) ∧ ¬ (65 ≤ p0.toNat ∧ p0.toNat ≤ 90)) →
      bodyCommaWs phrase (c0 :: rest) = [] := by
    intro phrase p0 ps hpe hp0
    unfold bodyCommaWs
    simp only [mseq, moptComma_head hcomma, mwsStar_head hws, hpe,
      mlit_ne_head (idhead_ne hd0 hp0), List.flatMap_cons, List.flatMap_nil,
      List.append_nil]
  intro body hb
  simp only [titleSplitBodies, List.mem_cons, List.not_mem_nil, or_false] at hb
  rcases hb with rfl | rfl | rfl | rfl | rfl | rfl | rfl | rfl | rfl | rfl | rfl | rfl | rfl | rfl | rfl
  · exact hincl _
  · exact hincl _
  · exact hcw _ 'i' _ rfl (by decide)
  · exact hcw _ 't' _ rfl (by decide)
  · exact hcw _ 'c' _ rfl (by decide)
  · exact hcw _ 't' _ rfl (by decide)
  · exact hcw _ 'a' _ rfl (by decide)
  · exact hcw _ 'a' _ rfl (by decide)
  · exact hcw _ 'a' _ rfl (by decide)
  · exact hcw _ 'i' _ rfl (by decide)
  · exact hcw _ 's' _ rfl (by decide)
  · exact hcw _ 'a' _ rfl (by decide)
  · exact hcw _ 'i' _ rfl (by decide)
  · have hcolon : ¬ (':' : Char) = c0 := idhead_ne hd0 (by decide)
    unfold bodyColon
    rw [mseq, show [':'] = (':' : Char) :: ([] : List Char) from rfl,
      mlit_ne_head hcolon _ _]
    rfl
  · unfold bodyPci
    by_cases hP : c0 = 'P'
    · subst hP
      have hnd : isDigitC 'P' = false := by decide
      obtain ⟨c1, r2, rfl, hd1⟩ := htwo hnd
      have hC : ¬ ('C' : Char) = c1 := by
        intro he
        rw [← he] at hd1
        exact absurd hd1 (by decide)
      rw [show "PCI DSS Reference:".toList
          = 'P' :: 'C' :: "I DSS Reference:".toList from rfl]
      exact mlit_ne_two hC _ _
    · have hPn : ¬ ('P' : Char) = c0 := fun he => hP he.symm
      rw [show "PCI DSS Reference:".toList
          = 'P' :: "CI DSS Reference:".toList from rfl]
      exact mlit_ne_head hPn _ _

theorem findSome?_mem {f : α → Option β} :
    ∀ {l : List α} {g : β}, l.findSome? f = some g → ∃ b ∈ l, f b = some g := by
  intro l
  induction l with
  | nil => intro g h; simp at h
  | cons a l ih =>
    intro g h
    rw [List.findSome?_cons] at h
    cases hfa : f a with
    | some z =>
      rw [hfa] at h
      exact ⟨a, by simp, by rw [hfa]; exact h⟩
    | none =>
      rw [hfa] at h
      obtain ⟨b, hb, hfb⟩ := ih h
      exact ⟨b, by simp [hb], hfb⟩

/-- A string has ink when it contains a non-whitespace character. -/
def hasInk (x : List Char) : Bool := x.any (fun c => !isWsC c)

theorem hasInk_replNl : ∀ {x : List Char}, hasInk x = true → hasInk (replNl x) = true := by
  intro x
  induction x with
  | nil => simp [hasInk, replNl]
  | cons c cs ih =>
    simp only [hasInk, replNl, List.map_cons, List.any_cons, Bool.or_eq_true] at *
    intro h
    rcases h with h | h
    · left
      rw [replNl_ws]
      exact h
    · right
      exact ih h

theorem hasInk_dropWhile : ∀ {x : List Char}, hasInk x = true →
    hasInk (x.dropWhile isWsC) = true := by
  intro x
  induction x with
  | nil => simp [hasInk]
  | cons c cs ih =>
    intro h
    rw [List.dropWhile_cons]
    by_cases hc : isWsC c = true
    · rw [if_pos hc]
      refine ih ?_
      simp only [hasInk, List.any_cons, Bool.or_eq_true, hc] at h
      rcases h with h | h
      · simp at h
      · exact h
    · rw [if_neg hc]
      exact h

theorem hasInk_reverse {x : List Char} (h : hasInk x = true) :
    hasInk x.reverse = true := by
  unfold hasInk at h ⊢
  rw [List.any_reverse]
  exact h

theorem hasInk_strip {x : List Char} (h : hasInk x = true) :
    hasInk (stripWs x) = true := by
  unfold stripWs
  exact hasInk_reverse (hasInk_dropWhile (hasInk_reverse (hasInk_dropWhile h)))

theorem hasInk_collapseAux : ∀ (b : Bool) {x : List Char}, hasInk x = true →
    hasInk (collapseWsAux b x) = true := by
  intro b x
  induction x generalizing b with
  | nil => simp [hasInk]
  | cons c cs ih =>
    intro h
    by_cases hc : isWsC c = true
    · have hcs : hasInk cs = true := by
        simp only [hasInk, List.any_cons, Bool.or_eq_true, hc] at h
        rcases h with h | h
        · simp at h
        · exact h
      simp only [collapseWsAux, hc, if_true]
      unfold hasInk
      rw [List.any_append]
      have := ih true hcs
      unfold hasInk at this
      simp [this]
    · have hc2 : isWsC c = false := by simpa using hc
      simp only [collapseWsAux, hc2, Bool.false_eq_true, if_false]
      simp [hasInk, hc2]

theorem hasInk_commaToDot (y : List Char) (h : hasInk y = true) :
    hasInk (commaToDot y) = true := by
  unfold commaToDot
  by_cases hl : y.getLast? = some ','
  · rw [if_pos hl]
    unfold hasInk
    rw [List.any_append]
    simp [isWsC]
  · rw [if_neg hl]
    exact h

/-- Identifier-bearing texts always produce a title with printable
content: no splitting pattern can capture the empty prefix, so at
least the first identifier character survives normalization. -/
theorem cleanTitle_content {t id : List Char} (hid : parseReqIdx t = some id) :
    hasInk (cleanTitle t) = true := by
  obtain ⟨c0, rest, rfl, hd0, _⟩ := parse_head_two hid
  have hc0 : isWsC c0 = false := idhead_not_ws hd0
  have hcand : hasInk (titleCandidate (c0 :: rest)) = true := by
    unfold titleCandidate
    cases hfs : titleSplitBodies.findSome?
        (fun body => cutRule body (c0 :: rest)) with
    | none => simp [hasInk, hc0]
    | some g =>
      obtain ⟨body, hbmem, hcb⟩ := findSome?_mem hfs
      unfold cutRule at hcb
      cases hfind : (List.range ((c0 :: rest).length + 1)).reverse.find?
          (fun k => bodyAt body ((c0 :: rest).drop k)) with
      | none =>
        rw [hfind] at hcb
        simp at hcb
      | some k =>
        rw [hfind] at hcb
        have hpk : bodyAt body ((c0 :: rest).drop k) = true := by
          have hfk := List.find?_some hfind
          simpa using hfk
        have hg : g = (c0 :: rest).take k := by
          simpa using hcb.symm
        subst hg
        cases k with
        | zero =>
          rw [List.drop_zero] at hpk
          rw [bodyAt, bodies_at_head_none hid body hbmem] at hpk
          simp at hpk
        | succ k' =>
          rw [List.take_succ_cons]
          simp [hasInk, hc0]
  unfold cleanTitle
  exact hasInk_commaToDot _ (hasInk_collapseAux false (hasInk_strip (hasInk_replNl hcand)))

theorem snoc_inj {a b : List α} {x y : α} (h : a ++ [x] = b ++ [y]) :
    a = b ∧ x = y := by
  have h1 := congrArg List.reverse h
  simp only [List.reverse_append, List.reverse_cons, List.reverse_nil,
    List.nil_append, List.singleton_append, List.cons.injEq] at h1
  exact ⟨by simpa using congrArg List.reverse h1.2, h1.1⟩

theorem getAt_appendAt_self {p : List Nat} {t pn : RTree} (c : RTree)
    (h : getAt p t = some pn) :
    getAt p (appendAt p c t)
      = some (RTree.node pn.ident pn.title pn.depth (pn.kids ++ [c])) := by
  obtain ⟨n', hn', hi, ht, hd, hcase⟩ := getAt_appendAt p p c t pn h
  rcases hcase with ⟨_, hk⟩ | ⟨hne, _⟩
  · rw [hn']
    rw [show RTree.node pn.ident pn.title pn.depth (pn.kids ++ [c]) = n' from by
      rw [← RTree.eta n', hi, ht, hd, hk]]
  · exact absurd rfl hne

theorem getAt_appendAt_new {p : List Nat} {t pn : RTree} (c : RTree)
    (h : getAt p t = some pn) :
    getAt (p ++ [pn.kids.length]) (appendAt p c t) = some c := by
  rw [getAt_append, getAt_appendAt_self c h]
  show getAt [pn.kids.length] (RTree.node pn.ident pn.title pn.depth (pn.kids ++ [c]))
      = some c
  simp [getAt, RTree.kids]

/-- Complete classification of the nodes of the tree after an append:
each addressable node either existed before at the same path (with
identifier, title and depth unchanged, and children unchanged except
at the append path itself), or it lies inside the freshly appended
child. -/
theorem getAt_appendAt_rev : ∀ (p q : List Nat) (c t pn n' : RTree),
    getAt p t = some pn →
    getAt q (appendAt p c t) = some n' →
    (∃ n, getAt q t = some n ∧ n'.ident = n.ident ∧ n'.title = n.title
        ∧ n'.depth = n.depth
        ∧ ((q = p ∧ n'.kids = n.kids ++ [c]) ∨ (q ≠ p ∧ n'.kids.length = n.kids.length)))
    ∨ (∃ r, q = p ++ pn.kids.length :: r ∧ getAt r c = some n')
  | [], [], c, .node id ti d ks, pn, n', hp, hq => by
    left
    simp only [getAt, Option.some.injEq] at hp hq
    refine ⟨.node id ti d ks, rfl, ?_⟩
    rw [← hq]
    exact ⟨rfl, rfl, rfl, Or.inl ⟨rfl, rfl⟩⟩
  | [], i :: q', c, .node id ti d ks, pn, n', hp, hq => by
    simp only [getAt, Option.some.injEq] at hp
    simp only [appendAt, getAt, RTree.kids] at hq
    by_cases hi : i < ks.length
    · left
      rw [show (ks ++ [c])[i]? = ks[i]? from by simp [List.getElem?_append, hi]] at hq
      cases hk : ks[i]? with
      | none => rw [hk] at hq; simp at hq
      | some ch =>
        rw [hk] at hq
        refine ⟨n', ?_, rfl, rfl, rfl, Or.inr ⟨by simp, rfl⟩⟩
        simp only [getAt, RTree.kids]
        rw [hk]
        exact hq
    · by_cases hie : i = ks.length
      · right
        subst hie
        rw [show (ks ++ [c])[ks.length]? = some c from by simp] at hq
        rw [← hp]
        exact ⟨q', by simp [RTree.kids], hq⟩
      · rw [show (ks ++ [c])[i]? = none from by
          rw [List.getElem?_eq_none]
          simp only [List.length_append, List.length_cons, List.length_nil]
          omega] at hq
        simp at hq
  | j :: p', [], c, .node id ti d ks, pn, n', hp, hq => by
    left
    simp only [appendAt, getAt, Option.some.injEq] at hq
    refine ⟨.node id ti d ks, rfl, ?_⟩
    rw [← hq]
    refine ⟨rfl, rfl, rfl, Or.inr ⟨by simp, ?_⟩⟩
    simp [RTree.kids, modList_length]
  | j :: p', i :: q', c, .node id ti d ks, pn, n', hp, hq => by
    simp only [getAt, RTree.kids] at hp
    cases hkj : ks[j]? with
    | none => rw [hkj] at hp; simp at hp
    | some chj =>
      rw [hkj] at hp
      simp only [appendAt, getAt, RTree.kids] at hq
      rw [modList_get] at hq
      by_cases hij : i = j
      · subst hij
        rw [if_pos rfl, hkj] at hq
        rcases getAt_appendAt_rev p' q' c chj pn n' hp hq with
          ⟨n, hn, hi2, ht2, hd2, hcase⟩ | ⟨r, hqe, hr⟩
        · left
          refine ⟨n, ?_, hi2, ht2, hd2, ?_⟩
          · simp only [getAt, RTree.kids]
            rw [hkj]
            exact hn
          · rcases hcase with ⟨he, hk⟩ | ⟨hne, hlen⟩
            · exact Or.inl ⟨by rw [he], hk⟩
            · exact Or.inr ⟨by simp [hne], hlen⟩
        · right
          exact ⟨r, by rw [hqe]; rfl, hr⟩
      · left
        rw [if_neg hij] at hq
        cases hki : ks[i]? with
        | none => rw [hki] at hq; simp at hq
        | some chi =>
          rw [hki] at hq
          refine ⟨n', ?_, rfl, rfl, rfl, Or.inr ⟨by simp [hij], rfl⟩⟩
          simp only [getAt, RTree.kids]
          rw [hki]
          exact hq

/-! ## The tree-builder invariant -/

/-- Invariants maintained by `ComplianceControlTree` during
construction: the spine maps 0 to the root and every other key to a
node whose identifier has exactly that many segments; every node's
`depth` equals its distance from the root; every non-root node carries
an identifier (obtained from the matcher) and a title with printable
content; and the identifier of a child of a non-root node has exactly
one segment more than its parent. -/
structure TreeWF (st : BState) : Prop where
  spine0 : st.lastByDepth 0 = some []
  spineKey : ∀ k p, st.lastByDepth k = some p → 1 ≤ k →
    ∃ n id, getAt p st.root = some n ∧ n.ident = some id ∧ countSegs id = k ∧ p ≠ []
  depthLen : ∀ p n, getAt p st.root = some n → n.depth = p.length
  identSome : ∀ p n, getAt p st.root = some n → p ≠ [] →
    ∃ id, n.ident = some id ∧ (∃ s, parseReqIdx s = some id) ∧ hasInk n.title = true
  childKey : ∀ p i n m, getAt p st.root = some n → getAt (p ++ [i]) st.root = some m →
    p ≠ [] → ∃ idn idm, n.ident = some idn ∧ m.ident = some idm
      ∧ countSegs idm = countSegs idn + 1

theorem getAt_rootNode_cons (i : Nat) (q : List Nat) :
    getAt (i :: q) rootNode = none := by
  simp [getAt, rootNode, RTree.kids]

theorem initTree_wf : TreeWF initTree := by
  refine ⟨rfl, ?_, ?_, ?_, ?_⟩
  · intro k p hp hk
    have : (if k = 0 then some ([] : List Nat) else none) = some p := hp
    rw [if_neg (by omega)] at this
    simp at this
  · intro p n hp
    cases p with
    | nil =>
      simp only [getAt, Option.some.injEq] at hp
      rw [← hp]
      rfl
    | cons i q =>
      rw [show initTree.root = rootNode from rfl, getAt_rootNode_cons] at hp
      simp at hp
  · intro p n hp hpne
    cases p with
    | nil => exact absurd rfl hpne
    | cons i q =>
      rw [show initTree.root = rootNode from rfl, getAt_rootNode_cons] at hp
      simp at hp
  · intro p i n m hp hq hpne
    cases p with
    | nil => exact absurd rfl hpne
    | cons j q =>
      rw [show initTree.root = rootNode from rfl, getAt_rootNode_cons] at hp
      simp at hp

theorem parseIdAndTitle_some {b id : List Char}
    (h : (parseIdAndTitle b).id = some id) :
    parseReqIdx (stripWs b) = some id
      ∧ (parseIdAndTitle b).title = cleanTitle (stripWs b) := by
  by_cases he : stripWs b = []
  · rw [show (parseIdAndTitle b).id = none from by simp [parseIdAndTitle, he]] at h
    simp at h
  · constructor
    · rw [show (parseIdAndTitle b).id = parseReqIdx (stripWs b) from by
        simp [parseIdAndTitle, he]] at h
      exact h
    · simp [parseIdAndTitle, he]

theorem countSegs_pos (id : List Char) : 1 ≤ countSegs id := by
  unfold countSegs
  omega

theorem parent_exists {st : BState} (hw : TreeWF st) (key : Nat) :
    ∃ parent, getAt ((st.lastByDepth (key - 1)).getD []) st.root = some parent := by
  cases hsp : st.lastByDepth (key - 1) with
  | none => exact ⟨st.root, by simp [getAt]⟩
  | some p =>
    by_cases hk : key - 1 = 0
    · rw [hk, hw.spine0] at hsp
      have hpe : p = [] := by simpa using hsp.symm
      subst hpe
      exact ⟨st.root, by simp [getAt]⟩
    · obtain ⟨n, idn, hn, _, _, _⟩ := hw.spineKey (key - 1) p hsp (by omega)
      exact ⟨n, by simpa using hn⟩

/-- Core preservation argument for one attach. -/
theorem step_wf_core {st : BState} (hw : TreeWF st) (id title : List Char)
    (hidwf : ∃ s, parseReqIdx s = some id) (hink : hasInk title = true)
    (pPath : List Nat) (parent : RTree)
    (hpeq : pPath = (st.lastByDepth (countSegs id - 1)).getD [])
    (hpar : getAt pPath st.root = some parent) :
    TreeWF ⟨appendAt pPath (RTree.node (some id) title (parent.depth + 1) []) st.root,
      fun k => if k = countSegs id then some (pPath ++ [parent.kids.length])
        else st.lastByDepth k⟩ := by
  have hkey1 : 1 ≤ countSegs id := countSegs_pos id
  have hpinfo : pPath ≠ [] →
      ∃ idp, parent.ident = some idp ∧ countSegs idp = countSegs id - 1
        ∧ 1 ≤ countSegs id - 1 := by
    intro hne
    cases hsp : st.lastByDepth (countSegs id - 1) with
    | none =>
      rw [hsp] at hpeq
      exact absurd (by simpa using hpeq) hne
    | some p =>
      rw [hsp] at hpeq
      have hpp : pPath = p := by simpa using hpeq
      subst hpp
      by_cases hk0 : countSegs id - 1 = 0
      · rw [hk0, hw.spine0] at hsp
        exact absurd (by simpa using hsp.symm) hne
      · obtain ⟨n, idp, hn, hident, hcount, _⟩ :=
          hw.spineKey (countSegs id - 1) pPath hsp (by omega)
        have hne2 : n = parent := Option.some.inj (hn.symm.trans hpar)
        subst hne2
        exact ⟨idp, hident, hcount, by omega⟩
  refine ⟨?_, ?_, ?_, ?_, ?_⟩
  · show (if 0 = countSegs id then some (pPath ++ [parent.kids.length])
        else st.lastByDepth 0) = some []
    rw [if_neg (by omega), hw.spine0]
  · intro k p hp hk1
    dsimp only at hp
    by_cases hkk : k = countSegs id
    · subst hkk
      rw [if_pos rfl] at hp
      have hpe : p = pPath ++ [parent.kids.length] := by simpa using hp.symm
      subst hpe
      exact ⟨_, id, getAt_appendAt_new _ hpar, rfl, rfl, by simp⟩
    · rw [if_neg hkk] at hp
      obtain ⟨n, idn, hn, hident, hcount, hpne⟩ := hw.spineKey k p hp hk1
      obtain ⟨n', hn', hi', _, _, _⟩ := getAt_appendAt pPath p _ st.root n hn
      exact ⟨n', idn, hn', by rw [hi', hident], hcount, hpne⟩
  · intro q n' hq
    rcases getAt_appendAt_rev pPath q _ st.root parent n' hpar hq with
      ⟨n, hn, _, _, hd, _⟩ | ⟨r, hqe, hr⟩
    · rw [hd]
      exact hw.depthLen q n hn
    · cases r with
      | nil =>
        have hne : RTree.node (some id) title (parent.depth + 1) [] = n' := by
          simpa [getAt] using hr
        rw [← hne, hqe]
        show parent.depth + 1 = (pPath ++ [parent.kids.length]).length
        rw [hw.depthLen pPath parent hpar]
        simp
      | cons i r' =>
        rw [show getAt (i :: r') (RTree.node (some id) title (parent.depth + 1) [])
            = none from by simp [getAt, RTree.kids]] at hr
        simp at hr
  · intro q n' hq hqne
    rcases getAt_appendAt_rev pPath q _ st.root parent n' hpar hq with
      ⟨n, hn, hi, ht, _, _⟩ | ⟨r, hqe, hr⟩
    · obtain ⟨idn, hident, hwf, hinkn⟩ := hw.identSome q n hn hqne
      exact ⟨idn, by rw [hi, hident], hwf, by rw [ht]; exact hinkn⟩
    · cases r with
      | nil =>
        have hne : RTree.node (some id) title (parent.depth + 1) [] = n' := by
          simpa [getAt] using hr
        rw [← hne]
        exact ⟨id, rfl, hidwf, hink⟩
      | cons i r' =>
        rw [show getAt (i :: r') (RTree.node (some id) title (parent.depth + 1) [])
            = none from by simp [getAt, RTree.kids]] at hr
        simp at hr
  · intro q i n m hq hqi hqne
    rcases getAt_appendAt_rev pPath (q ++ [i]) _ st.root parent m hpar hqi with
      ⟨m0, hm0, hmi, _, _, _⟩ | ⟨r, hqe, hr⟩
    · -- the child node already existed, hence so did the parent node
      have hq0 : ∃ n0, getAt q st.root = some n0 := by
        rw [getAt_append] at hm0
        cases hg : getAt q st.root with
        | none => rw [hg] at hm0; simp at hm0
        | some n0 => exact ⟨n0, rfl⟩
      obtain ⟨n0, hn0⟩ := hq0
      rcases getAt_appendAt_rev pPath q _ st.root parent n hpar hq with
        ⟨n1, hn1, hni, _, _, _⟩ | ⟨r2, hqe2, hr2⟩
      · have he : n1 = n0 := Option.some.inj (hn1.symm.trans hn0)
        obtain ⟨idn, idm, ha, hb, hc⟩ := hw.childKey q i n0 m0 hn0 hm0 hqne
        exact ⟨idn, idm, by rw [hni, he, ha], by rw [hmi, hb], hc⟩
      · exfalso
        rw [hqe2, List.append_assoc, getAt_append, hpar] at hm0
        have hm1 : getAt (parent.kids.length :: (r2 ++ [i])) parent = some m0 := hm0
        have hnone : getAt (parent.kids.length :: (r2 ++ [i])) parent = none := by
          simp only [getAt]
          rw [List.getElem?_eq_none (by omega)]
        rw [hnone] at hm1
        simp at hm1
    · cases r with
      | nil =>
        obtain ⟨hqp, hil⟩ := snoc_inj hqe
        subst hqp
        subst hil
        have hself := getAt_appendAt_self
          (RTree.node (some id) title (parent.depth + 1) []) hpar
        have hne2 : n = RTree.node parent.ident parent.title parent.depth
            (parent.kids ++ [RTree.node (some id) title (parent.depth + 1) []]) :=
          Option.some.inj (hq.symm.trans hself)
        have hm : m = RTree.node (some id) title (parent.depth + 1) [] := by
          simpa [getAt] using hr.symm
        obtain ⟨idp, hidp, hcountp, hk1p⟩ := hpinfo hqne
        refine ⟨idp, id, ?_, ?_, ?_⟩
        · rw [hne2]
          exact hidp
        · rw [hm]
          rfl
        · omega
      | cons i2 r' =>
        rw [show getAt (i2 :: r') (RTree.node (some id) title (parent.depth + 1) [])
            = none from by simp [getAt, RTree.kids]] at hr
        simp at hr

/-- Every step of the tree builder preserves the invariant. -/
theorem addNode_wf {st : BState} (hw : TreeWF st) (b : List Char) :
    TreeWF (addNodeFromBlob st b) := by
  cases hpb : (parseIdAndTitle b).id with
  | none => rw [addNodeFromBlob_skip hpb]; exact hw
  | some id =>
    obtain ⟨hparse, _⟩ := parseIdAndTitle_some hpb
    obtain ⟨parent, hpar⟩ := parent_exists hw (countSegs id)
    have hstep : addNodeFromBlob st b
        = ⟨appendAt ((st.lastByDepth (countSegs id - 1)).getD [])
            (RTree.node (some id) (parseIdAndTitle b).title (parent.depth + 1) [])
            st.root,
          fun k => if k = countSegs id
            then some (((st.lastByDepth (countSegs id - 1)).getD [])
              ++ [parent.kids.length])
            else st.lastByDepth k⟩ := by
      simp only [addNodeFromBlob, hpb, hpar]
    rw [hstep]
    refine step_wf_core hw id (parseIdAndTitle b).title ⟨stripWs b, hparse⟩ ?_ _ parent
      rfl hpar
    rw [(parseIdAndTitle_some hpb).2]
    exact cleanTitle_content hparse

theorem buildTree_wf (blobs : List (List Char)) : TreeWF (buildTree blobs) := by
  unfold buildTree
  exact foldl_pres (P := TreeWF) addNodeFromBlob (fun st b hst => addNode_wf hst b)
    blobs initTree initTree_wf

/-! ## Claim C2: the depth attribute -/

/-- C2 counterexample: a blob whose identifier has two segments but
whose parent falls back to the root gets depth 1, not 2. -/
theorem depthEqualsSegments_cex :
    ¬ (∀ n ∈ (buildTree ["1.1 x".toList]).root.kids,
        n.depth = countSegs (n.ident.getD [])) := by
  decide

/-- C2 amended: the `depth` attribute of every node equals its tree
distance from the synthetic root (the code sets
`node.depth = parent.depth + 1`); it equals the identifier segment
count only when the resolved ancestors line up, and in particular a
node attached to the root by the fallback always has depth 1 whatever
its segment count. -/
theorem depthIsTreeDepth : ∀ (blobs : List (List Char)) (p : List Nat) (n : RTree),
    getAt p (buildTree blobs).root = some n → n.depth = p.length :=
  fun blobs p n h => (buildTree_wf blobs).depthLen p n h

theorem depthIsTreeDepth_witness :
    (buildTree ["1 a".toList]).root.depth = 0 :=
  depthIsTreeDepth ["1 a".toList] [] (buildTree ["1 a".toList]).root rfl

/-! ## Claim C3: parent resolution by segment count -/

theorem addNode_spine_mono {st : BState} {k : Nat} (b : List Char)
    (h : (st.lastByDepth k).isSome = true) :
    ((addNodeFromBlob st b).lastByDepth k).isSome = true := by
  cases hpb : (parseIdAndTitle b).id with
  | none => rw [addNodeFromBlob_skip hpb]; exact h
  | some id =>
    simp only [addNodeFromBlob, hpb]
    cases hg : getAt ((st.lastByDepth (countSegs id - 1)).getD []) st.root with
    | none => exact h
    | some parent =>
      by_cases hkk : k = countSegs id
      · simp [hkk]
      · simpa [hkk] using h

theorem addNode_spine_set {st : BState} (hw : TreeWF st) {b id : List Char}
    (hpb : (parseIdAndTitle b).id = some id) :
    ((addNodeFromBlob st b).lastByDepth (countSegs id)).isSome = true := by
  obtain ⟨parent, hpar⟩ := parent_exists hw (countSegs id)
  simp only [addNodeFromBlob, hpb, hpar]
  simp

theorem fold_spine_mono {k : Nat} :
    ∀ (bs : List (List Char)) (st : BState),
      (st.lastByDepth k).isSome = true →
      ((bs.foldl addNodeFromBlob st).lastByDepth k).isSome = true
  | [], _, h => h
  | b :: bs, st, h =>
    fold_spine_mono bs (addNodeFromBlob st b) (addNode_spine_mono b h)

theorem fold_wf (bs : List (List Char)) (st : BState) (hw : TreeWF st) :
    TreeWF (bs.foldl addNodeFromBlob st) :=
  foldl_pres (P := TreeWF) addNodeFromBlob (fun _ b hs => addNode_wf hs b) bs st hw

/-- After processing a blob list, the spine has an entry at every
segment count seen among the valid blobs. -/
theorem spine_seen {k : Nat} :
    ∀ (bs : List (List Char)) (st : BState), TreeWF st →
      (∃ b' ∈ bs, ∃ id', (parseIdAndTitle b').id = some id' ∧ countSegs id' = k) →
      ((bs.foldl addNodeFromBlob st).lastByDepth k).isSome = true := by
  intro bs
  induction bs with
  | nil =>
    intro st hw hex
    simp at hex
  | cons b bs ih =>
    intro st hw hex
    rcases hex with ⟨b', hb', id', hid', hk⟩
    rcases List.mem_cons.mp hb' with rfl | hmem
    · rw [List.foldl_cons]
      refine fold_spine_mono bs _ ?_
      rw [← hk]
      exact addNode_spine_set hw hid'
    · rw [List.foldl_cons]
      exact ih (addNodeFromBlob st b) (addNode_wf hw b) ⟨b', hmem, id', hid', hk⟩

theorem appendAt_root_kids_length {p : List Nat} (hp : p ≠ []) (c : RTree) :
    ∀ t : RTree, ((appendAt p c t).kids).length = (t.kids).length := by
  intro t
  cases t with
  | node id ti d ks =>
    cases p with
    | nil => exact absurd rfl hp
    | cons j p' => simp [appendAt, RTree.kids, modList_length]

/-- C3: in every built tree, a child of a non-root node has an
identifier with exactly one more segment than its parent; and a new
node whose segment count is `d` never attaches to the root when some
earlier blob already produced a node of segment count `d - 1` (the
root-fallback occurs only when no such node was ever attached). -/
theorem parentSegmentLaw :
    (∀ (blobs : List (List Char)) (p : List Nat) (i : Nat) (n m : RTree),
        getAt p (buildTree blobs).root = some n →
        getAt (p ++ [i]) (buildTree blobs).root = some m → p ≠ [] →
        ∃ idn idm, n.ident = some idn ∧ m.ident = some idm
          ∧ countSegs idm = countSegs idn + 1)
    ∧ (∀ (bs1 : List (List Char)) (b id : List Char),
        (parseIdAndTitle b).id = some id →
        (∃ b' ∈ bs1, ∃ id', (parseIdAndTitle b').id = some id'
            ∧ countSegs id' + 1 = countSegs id) →
        ((buildTree (bs1 ++ [b])).root).kids.length
          = ((buildTree bs1).root).kids.length) := by
  constructor
  · exact fun blobs p i n m hn hm hp => (buildTree_wf blobs).childKey p i n m hn hm hp
  · intro bs1 b id hpb hex
    have hw1 : TreeWF (buildTree bs1) := buildTree_wf bs1
    have hseen : (((buildTree bs1).lastByDepth (countSegs id - 1))).isSome = true := by
      obtain ⟨b', hb', id', hid', hk⟩ := hex
      have h1 : 1 ≤ countSegs id' := countSegs_pos id'
      have hkk : countSegs id' = countSegs id - 1 := by omega
      exact spine_seen bs1 initTree initTree_wf ⟨b', hb', id', hid', hkk⟩
    obtain ⟨p, hp⟩ := Option.isSome_iff_exists.mp hseen
    have hk1 : 1 ≤ countSegs id - 1 := by
      obtain ⟨b', hb', id', hid', hk⟩ := hex
      have := countSegs_pos id'
      omega
    obtain ⟨parnode, idp, hpar, _, _, hpne⟩ :=
      hw1.spineKey (countSegs id - 1) p hp hk1
    have hbuild : buildTree (bs1 ++ [b])
        = addNodeFromBlob (buildTree bs1) b := by
      unfold buildTree
      rw [List.foldl_append]
      rfl
    rw [hbuild]
    have hgd : ((buildTree bs1).lastByDepth (countSegs id - 1)).getD [] = p := by
      rw [hp]
      rfl
    simp only [addNodeFromBlob, hpb, hgd, hpar]
    exact appendAt_root_kids_length hpne _ _

theorem parentSegmentLaw_witness :
    (∃ idn idm,
        ((getAt [0] (buildTree ["1 a".toList, "1.1 b".toList]).root).get
            (by decide)).ident = some idn
      ∧ ((getAt ([0] ++ [0]) (buildTree ["1 a".toList, "1.1 b".toList]).root).get
            (by decide)).ident = some idm
      ∧ countSegs idm = countSegs idn + 1)
    ∧ (buildTree (["1 a".toList, "1.1 b".toList] ++ ["1.1.1 c".toList])).root.kids.length
        = (buildTree ["1 a".toList, "1.1 b".toList]).root.kids.length :=
  ⟨parentSegmentLaw.1 ["1 a".toList, "1.1 b".toList] [0] 0 _ _
      (Option.some_get _).symm (Option.some_get _).symm (by simp),
   parentSegmentLaw.2 ["1 a".toList, "1.1 b".toList] "1.1.1 c".toList "1.1.1".toList
      (by decide)
      ⟨"1.1 b".toList, by simp, "1.1".toList, by decide, by decide⟩⟩

/-! ## Claim C8: both encodings traverse in the same order -/

mutual

theorem dObjVisit_toDict : ∀ t : RTree,
    dObjVisit (toDict t) = (yamlVisit t).map RTree.ident
  | .node id ti d ks => by
    simp only [toDict, dObjVisit, yamlVisit, List.map_cons, RTree.ident]
    rw [dObjVisitF_toDictF ks]

theorem dObjVisitF_toDictF : ∀ ts : List RTree,
    dObjVisitF (toDictF ts) = (yamlVisitF ts).map RTree.ident
  | [] => rfl
  | t :: ts => by
    simp only [toDictF, dObjVisitF, yamlVisitF, List.map_append]
    rw [dObjVisit_toDict t, dObjVisitF_toDictF ts]

end

mutual

theorem yamlVisit_path : ∀ (t n : RTree), n ∈ yamlVisit t →
    n = t ∨ ∃ i p, getAt (i :: p) t = some n
  | .node id ti d ks, n, hn => by
    rw [yamlVisit, List.mem_cons] at hn
    rcases hn with rfl | hn
    · exact Or.inl rfl
    · obtain ⟨j, c, hjc, hin⟩ := yamlVisitF_path ks n hn
      right
      rcases hin with rfl | ⟨i, p, hip⟩
      · exact ⟨j, [], by simp [getAt, RTree.kids, hjc]⟩
      · exact ⟨j, i :: p, by simp only [getAt, RTree.kids]; rw [hjc]; exact hip⟩

theorem yamlVisitF_path : ∀ (ts : List RTree) (n : RTree), n ∈ yamlVisitF ts →
    ∃ (j : Nat) (c : RTree), ts[j]? = some c ∧ (n = c ∨ ∃ i p, getAt (i :: p) c = some n)
  | [], n, hn => by simp [yamlVisitF] at hn
  | t :: ts, n, hn => by
    rw [yamlVisitF, List.mem_append] at hn
    rcases hn with hn | hn
    · exact ⟨0, t, by simp, yamlVisit_path t n hn⟩
    · obtain ⟨j, c, hjc, hin⟩ := yamlVisitF_path ts n hn
      exact ⟨j + 1, c, by simpa using hjc, hin⟩

end

/-- C8: the YAML (structured-document) walk and the nested-object
encoding visit the nodes in exactly the same order: each node first,
then its whole subtree, children in insertion order; both start from
the root children, never emitting the root, and every emitted node of
a built tree carries an identifier. -/
theorem encodingOrderAgree :
    (∀ st : BState, dictOrder st = (yamlOrder st).map RTree.ident)
    ∧ ∀ blobs : List (List Char),
        (yamlOrder (buildTree blobs)).all (fun n => n.ident.isSome) = true := by
  constructor
  · intro st
    unfold dictOrder treeToDict yamlOrder
    exact dObjVisitF_toDictF _
  · intro blobs
    rw [List.all_eq_true]
    intro n hn
    unfold yamlOrder at hn
    obtain ⟨j, c, hjc, hin⟩ := yamlVisitF_path _ n hn
    have hget : ∃ q, q ≠ [] ∧ getAt q (buildTree blobs).root = some n := by
      rcases hin with rfl | ⟨i, p, hip⟩
      · exact ⟨[j], by simp, by simp [getAt, hjc]⟩
      · exact ⟨j :: i :: p, by simp,
          by simp only [getAt]; rw [hjc]; exact hip⟩
    obtain ⟨q, hqne, hq⟩ := hget
    obtain ⟨idn, hident, _, _⟩ := (buildTree_wf blobs).identSome q n hq hqne
    simp [hident]

/-! ## Claim C7: the round trip through the nested-object encoding

The scanner facts below show that a successfully matched identifier
token re-parses from the reconstructed blob `identifier + " " + title`:
the match of `REQ_INDEX_PATTERN` depends only on the token itself and
on the single following character, which is whitespace in both the
original and the reconstructed text. -/

theorem isUpC_of_digit {c : Char} (h : isDigitC c = true) : isUpC c = false := by
  cases hu : isUpC c
  · rfl
  · have h1 := isDigitC_toNat h
    have h2 := isUpC_toNat hu
    omega

theorem ws_not_digit {c : Char} (h : isWsC c = true) : isDigitC c = false := by
  cases hd : isDigitC c
  · rfl
  · rw [digit_not_ws hd] at h
    exact absurd h (by simp)

theorem ws_ne_dot {c : Char} (h : isWsC c = true) : ¬ c = '.' := by
  intro he
  rw [he, dot_not_ws] at h
  exact absurd h (by simp)

/-- The scanner stops immediately on a whitespace character. -/
theorem segsAux_stop (m : Bool) {c : Char} (hws : isWsC c = true) (ti : List Char) :
    segsAux m (c :: ti) = ([], c :: ti) := by
  have hne := ws_ne_dot hws
  have hnd := ws_not_digit hws
  cases m
  · cases ti with
    | nil => rw [segsAux.eq_2, if_neg hne]
    | cons c2 r2 => rw [segsAux.eq_3, if_neg hne]
  · cases ti with
    | nil => rw [segsAux.eq_4, if_neg (by simp [hnd]), if_neg hne]
    | cons c2 r2 => rw [segsAux.eq_5, if_neg (by simp [hnd]), if_neg hne]

/-- A digit in state `true` is always consumed. -/
theorem segsAux_true_digit {c : Char} (hd : isDigitC c = true) (Y : List Char) :
    segsAux true (c :: Y) = (c :: (segsAux true Y).1, (segsAux true Y).2) := by
  cases Y with
  | nil => rw [segsAux.eq_4, if_pos hd]
  | cons y ys => rw [segsAux.eq_5, if_pos hd]

/-- A dot followed by a digit is always consumed (opening a group). -/
theorem segsAux_dot_digit {c2 : Char} (hd2 : isDigitC c2 = true) (m : Bool) (Y : List Char) :
    segsAux m ('.' :: c2 :: Y) = ('.' :: c2 :: (segsAux true Y).1, (segsAux true Y).2) := by
  cases m
  · rw [segsAux.eq_3, if_pos rfl, if_pos hd2]
  · rw [segsAux.eq_5, if_neg (by decide), if_pos rfl, if_pos hd2]

/-- Re-running the scanner on its own output followed by a whitespace
character reproduces the output: the consumed token is independent of
what stopped the original scan. -/
theorem segsAux_refeed : ∀ (m : Bool) (r : List Char) (c' : Char) (ti : List Char),
    isWsC c' = true →
    segsAux m ((segsAux m r).1 ++ c' :: ti) = ((segsAux m r).1, c' :: ti)
  | m, [], c', ti, hws => by
    rw [show (segsAux m []).1 = [] from by cases m <;> rfl]
    simpa using segsAux_stop m hws ti
  | false, [c], c', ti, hws => by
    rw [segsAux.eq_2]
    split <;> simpa using segsAux_stop false hws ti
  | false, c :: c2 :: r2, c', ti, hws => by
    rw [segsAux.eq_3]
    by_cases hc : c = '.'
    · subst hc
      by_cases hd : isDigitC c2 = true
      · rw [if_pos rfl, if_pos hd]
        dsimp only
        rw [List.cons_append, List.cons_append, segsAux_dot_digit hd false,
          segsAux_refeed true r2 c' ti hws]
      · rw [if_pos rfl, if_neg hd]
        simpa using segsAux_stop false hws ti
    · rw [if_neg hc]
      simpa using segsAux_stop false hws ti
  | true, [c], c', ti, hws => by
    rw [segsAux.eq_4]
    by_cases hd : isDigitC c = true
    · rw [if_pos hd]
      dsimp only
      rw [List.cons_append, segsAux_true_digit hd,
        segsAux_refeed true ([] : List Char) c' ti hws]
    · rw [if_neg hd]
      split <;> simpa using segsAux_stop true hws ti
  | true, c :: c2 :: r2, c', ti, hws => by
    rw [segsAux.eq_5]
    by_cases hd : isDigitC c = true
    · rw [if_pos hd]
      dsimp only
      rw [List.cons_append, segsAux_true_digit hd,
        segsAux_refeed true (c2 :: r2) c' ti hws]
    · rw [if_neg hd]
      by_cases hc : c = '.'
      · subst hc
        by_cases hd2 : isDigitC c2 = true
        · rw [if_pos rfl, if_pos hd2]
          dsimp only
          rw [List.cons_append, List.cons_append, segsAux_dot_digit hd2 true,
            segsAux_refeed true r2 c' ti hws]
        · rw [if_pos rfl, if_neg hd2]
          simpa using segsAux_stop true hws ti
      · rw [if_neg hc]
        simpa using segsAux_stop true hws ti

/-- The group part of a match is empty or starts with a dot. -/
theorem segsAux_false_head (r : List Char) :
    (segsAux false r).1 = [] ∨ ∃ z, (segsAux false r).1 = '.' :: z := by
  cases r with
  | nil => exact Or.inl rfl
  | cons c rest =>
    cases rest with
    | nil =>
      rw [segsAux.eq_2]
      split <;> exact Or.inl rfl
    | cons c2 r2 =>
      rw [segsAux.eq_3]
      by_cases hc : c = '.'
      · rw [if_pos hc]
        by_cases hd : isDigitC c2 = true
        · rw [if_pos hd]
          exact Or.inr ⟨c2 :: (segsAux true r2).1, by rw [hc]⟩
        · rw [if_neg hd]
          exact Or.inl rfl
      · rw [if_neg hc]
        exact Or.inl rfl

theorem takeWhile_digits_app : ∀ (ds rest : List Char),
    (∀ a ∈ ds, isDigitC a = true) →
    (rest = [] ∨ ∃ c rs, rest = c :: rs ∧ isDigitC c = false) →
    (ds ++ rest).takeWhile isDigitC = ds ∧ (ds ++ rest).dropWhile isDigitC = rest
  | [], rest, _, hstop => by
    rcases hstop with rfl | ⟨c, rs, rfl, hc⟩
    · simp
    · simp [List.takeWhile_cons, List.dropWhile_cons, hc]
  | d :: ds, rest, hall, hstop => by
    have hd : isDigitC d = true := hall d (by simp)
    obtain ⟨h1, h2⟩ := takeWhile_digits_app ds rest (fun a ha => hall a (by simp [ha])) hstop
    simp [List.takeWhile_cons, List.dropWhile_cons, hd, h1, h2]

/-- Decomposition of a successful match into its three regex parts:
optional uppercase letter, digit run, dot groups. -/
theorem parseReqIdx_decomp {t id : List Char} (h : parseReqIdx t = some id) :
    ∃ s1 ds r, id = s1 ++ (ds ++ (segsAux false r).1)
      ∧ (s1 = [] ∨ ∃ c0, s1 = [c0] ∧ isUpC c0 = true)
      ∧ ds ≠ [] ∧ (∀ a ∈ ds, isDigitC a = true) := by
  cases t with
  | nil => simp [parseReqIdx] at h
  | cons c0 cs =>
    by_cases hu : isUpC c0 = true
    · rw [parseReqIdx_cons_up cs hu] at h
      by_cases hds : cs.takeWhile isDigitC = []
      · rw [if_pos hds] at h
        exact absurd h (by simp)
      · rw [if_neg hds] at h
        rcases hrem : (parseSegs (cs.dropWhile isDigitC)).2 with _ | ⟨c, rest⟩
        · rw [hrem] at h
          exact absurd h (by simp)
        · rw [hrem] at h
          dsimp only at h
          by_cases hws : isWsC c = true
          · rw [if_pos hws] at h
            simp only [Option.some.injEq] at h
            refine ⟨[c0], cs.takeWhile isDigitC, cs.dropWhile isDigitC, ?_,
              Or.inr ⟨c0, rfl, hu⟩, hds, fun a ha => List.mem_takeWhile_imp ha⟩
            rw [← h]
            simp [parseSegs]
          · rw [if_neg hws] at h
            exact absurd h (by simp)
    · rw [parseReqIdx_cons_low cs (by simpa using hu)] at h
      by_cases hds : (c0 :: cs).takeWhile isDigitC = []
      · rw [if_pos hds] at h
        exact absurd h (by simp)
      · rw [if_neg hds] at h
        rcases hrem : (parseSegs ((c0 :: cs).dropWhile isDigitC)).2 with _ | ⟨c, rest⟩
        · rw [hrem] at h
          exact absurd h (by simp)
        · rw [hrem] at h
          dsimp only at h
          by_cases hws : isWsC c = true
          · rw [if_pos hws] at h
            simp only [Option.some.injEq] at h
            refine ⟨[], (c0 :: cs).takeWhile isDigitC, (c0 :: cs).dropWhile isDigitC, ?_,
              Or.inl rfl, hds, fun a ha => List.mem_takeWhile_imp ha⟩
            rw [← h]
            simp [parseSegs]
          · rw [if_neg hws] at h
            exact absurd h (by simp)

/-- The stop condition seen by the digit run of a reconstructed blob:
the following character is a dot (a group follows) or the appended
whitespace. -/
theorem sg_stop (r ti : List Char) :
    (segsAux false r).1 ++ ' ' :: ti = [] ∨
      ∃ c rs, (segsAux false r).1 ++ ' ' :: ti = c :: rs ∧ isDigitC c = false := by
  rcases segsAux_false_head r with he | ⟨z, he⟩
  · rw [he]
    exact Or.inr ⟨' ', ti, rfl, by decide⟩
  · rw [he]
    exact Or.inr ⟨'.', z ++ ' ' :: ti, rfl, by decide⟩

/-- Re-parsing a matched identifier followed by a space and arbitrary
text recovers exactly the identifier. -/
theorem parseReqIdx_refeed {t id : List Char} (h : parseReqIdx t = some id)
    (ti : List Char) : parseReqIdx (id ++ ' ' :: ti) = some id := by
  obtain ⟨s1, ds, r, hid, hs1, hdsne, hdsdig⟩ := parseReqIdx_decomp h
  have hsp : isWsC ' ' = true := by decide
  have hseg : segsAux false ((segsAux false r).1 ++ ' ' :: ti)
      = ((segsAux false r).1, ' ' :: ti) := segsAux_refeed false r ' ' ti hsp
  obtain ⟨htk, hdr⟩ := takeWhile_digits_app ds ((segsAux false r).1 ++ ' ' :: ti)
    hdsdig (sg_stop r ti)
  rcases hs1 with rfl | ⟨c0, rfl, hup⟩
  · cases ds with
    | nil => exact absurd rfl hdsne
    | cons d ds' =>
      have hd : isDigitC d = true := hdsdig d (by simp)
      have hu : isUpC d = false := isUpC_of_digit hd
      subst hid
      rw [show ([] ++ (d :: ds' ++ (segsAux false r).1)) ++ ' ' :: ti
          = d :: (ds' ++ ((segsAux false r).1 ++ ' ' :: ti)) from by simp]
      rw [parseReqIdx_cons_low _ hu]
      rw [show (d :: (ds' ++ ((segsAux false r).1 ++ ' ' :: ti)))
          = (d :: ds') ++ ((segsAux false r).1 ++ ' ' :: ti) from by simp] at *
      rw [htk, hdr]
      rw [if_neg (by simp)]
      show (match (parseSegs ((segsAux false r).1 ++ ' ' :: ti)).2 with
        | c :: _ => if isWsC c then
            some ((d :: ds') ++ (parseSegs ((segsAux false r).1 ++ ' ' :: ti)).1)
          else none
        | [] => none) = some ([] ++ (d :: ds' ++ (segsAux false r).1))
      rw [show parseSegs ((segsAux false r).1 ++ ' ' :: ti)
          = ((segsAux false r).1, ' ' :: ti) from hseg]
      simp [hsp]
  · subst hid
    rw [show (([c0] ++ (ds ++ (segsAux false r).1)) ++ ' ' :: ti)
        = c0 :: (ds ++ ((segsAux false r).1 ++ ' ' :: ti)) from by simp]
    rw [parseReqIdx_cons_up _ hup]
    rw [htk, hdr]
    rw [if_neg hdsne]
    show (match (parseSegs ((segsAux false r).1 ++ ' ' :: ti)).2 with
      | c :: _ => if isWsC c then
          some ([c0] ++ ds ++ (parseSegs ((segsAux false r).1 ++ ' ' :: ti)).1)
        else none
      | [] => none) = some ([c0] ++ (ds ++ (segsAux false r).1))
    rw [show parseSegs ((segsAux false r).1 ++ ' ' :: ti)
        = ((segsAux false r).1, ' ' :: ti) from hseg]
    simp [hsp]

/-- Python `str.rstrip()` on the whitespace set: drop trailing
whitespace only. -/
def rstrip (t : List Char) : List Char := (t.reverse.dropWhile isWsC).reverse

theorem dropWhile_append_of_ink {w : Char → Bool} :
    ∀ {x : List Char} (y : List Char), (∃ a ∈ x, w a = false) →
      (x ++ y).dropWhile w = x.dropWhile w ++ y
  | [], y, hex => by simp at hex
  | c :: cs, y, hex => by
    by_cases hc : w c = true
    · have hex' : ∃ a ∈ cs, w a = false := by
        obtain ⟨a, ha, hwa⟩ := hex
        rcases List.mem_cons.mp ha with rfl | ha'
        · rw [hc] at hwa
          exact absurd hwa (by simp)
        · exact ⟨a, ha', hwa⟩
      simp only [List.cons_append, List.dropWhile_cons, hc, if_true]
      exact dropWhile_append_of_ink y hex'
    · simp only [List.cons_append, List.dropWhile_cons]
      rw [if_neg hc, if_neg hc]
      rfl

theorem rstrip_append {x y : List Char} (h : hasInk y = true) :
    rstrip (x ++ y) = x ++ rstrip y := by
  have hex : ∃ a ∈ y.reverse, isWsC a = false := by
    obtain ⟨a, ha, hwa⟩ := List.any_eq_true.mp h
    exact ⟨a, List.mem_reverse.mpr ha, by simpa using hwa⟩
  unfold rstrip
  rw [List.reverse_append, dropWhile_append_of_ink x.reverse hex, List.reverse_append,
    List.reverse_reverse]

/-- Stripping a reconstructed blob `identifier ++ " " ++ title` removes
only trailing whitespace of the title. -/
theorem stripWs_blob {i ti : List Char} (hne : i ≠ [])
    (hnw : ∀ a ∈ i, isWsC a = false) (hink : hasInk ti = true) :
    stripWs (i ++ ' ' :: ti) = i ++ ' ' :: rstrip ti := by
  have hink' : hasInk (' ' :: ti) = true := by
    obtain ⟨a, ha, hwa⟩ := List.any_eq_true.mp hink
    exact List.any_eq_true.mpr ⟨a, by simp [ha], hwa⟩
  cases i with
  | nil => exact absurd rfl hne
  | cons c0 i' =>
    unfold stripWs
    rw [show ((c0 :: i') ++ ' ' :: ti).dropWhile isWsC = (c0 :: i') ++ ' ' :: ti from by
      simp [List.dropWhile_cons, hnw c0 (by simp)]]
    have h2 : rstrip ((c0 :: i') ++ ' ' :: ti) = (c0 :: i') ++ rstrip (' ' :: ti) :=
      rstrip_append hink'
    have h3 : rstrip (' ' :: ti) = ' ' :: rstrip ti := by
      have := rstrip_append (x := [' ']) (y := ti) hink
      simpa using this
    unfold rstrip at h2 h3
    rw [h2, h3]
    rfl

/-! ## Localized tree surgery

`mapAt` applies a function to the node at a child-index path; it is the
common generalization of `appendAt` used to compose successive appends
inside a grafted subtree. -/

def pushKid (c : RTree) : RTree → RTree
  | .node id ti d ks => .node id ti d (ks ++ [c])

def pushKids (cs : List RTree) : RTree → RTree
  | .node id ti d ks => .node id ti d (ks ++ cs)

def mapAt : List Nat → (RTree → RTree) → RTree → RTree
  | [], f, t => f t
  | i :: p, f, .node id ti d ks => .node id ti d (modList (mapAt p f) i ks)

theorem modList_congr {f g : α → α} (h : ∀ x, f x = g x) :
    ∀ (i : Nat) (l : List α), modList f i l = modList g i l
  | 0, [] => rfl
  | _ + 1, [] => rfl
  | 0, a :: as => by simp [modList, h a]
  | i + 1, a :: as => by simp [modList, modList_congr h i as]

theorem modList_modList (f g : α → α) :
    ∀ (i : Nat) (l : List α), modList f i (modList g i l) = modList (fun x => f (g x)) i l
  | 0, [] => rfl
  | _ + 1, [] => rfl
  | 0, a :: as => by simp [modList]
  | i + 1, a :: as => by simp [modList, modList_modList f g i as]

theorem modList_eq_of_get {f g : α → α} :
    ∀ {i : Nat} {l : List α} {c : α}, l[i]? = some c → f c = g c →
      modList f i l = modList g i l
  | _, [], _, hc, _ => by simp at hc
  | 0, a :: as, c, hc, hfg => by
    simp only [List.getElem?_cons_zero, Option.some.injEq] at hc
    subst hc
    simp [modList, hfg]
  | i + 1, a :: as, c, hc, hfg => by
    simp only [List.getElem?_cons_succ] at hc
    simp [modList, modList_eq_of_get hc hfg]

theorem modList_snoc_len (f : α → α) : ∀ (l : List α) (c : α),
    modList f l.length (l ++ [c]) = l ++ [f c]
  | [], c => rfl
  | a :: as, c => by simp [modList, modList_snoc_len f as c]

theorem mapAt_congr {f g : RTree → RTree} (h : ∀ x, f x = g x) :
    ∀ (p : List Nat) (r : RTree), mapAt p f r = mapAt p g r
  | [], r => h r
  | i :: p, .node id ti d ks => by
    simp only [mapAt]
    rw [modList_congr (fun x => mapAt_congr h p x) i ks]

theorem mapAt_append : ∀ (p q : List Nat) (f : RTree → RTree) (r : RTree),
    mapAt (p ++ q) f r = mapAt p (mapAt q f) r
  | [], q, f, r => rfl
  | i :: p, q, f, .node id ti d ks => by
    simp only [List.cons_append, mapAt]
    exact congrArg (RTree.node id ti d) (modList_congr (fun x => mapAt_append p q f x) i ks)

theorem mapAt_mapAt : ∀ (p : List Nat) (f g : RTree → RTree) (r : RTree),
    mapAt p f (mapAt p g r) = mapAt p (fun x => f (g x)) r
  | [], f, g, r => rfl
  | i :: p, f, g, .node id ti d ks => by
    simp only [mapAt]
    rw [modList_modList, modList_congr (fun x => mapAt_mapAt p f g x) i ks]

theorem mapAt_eq_of_getAt : ∀ {p : List Nat} {f g : RTree → RTree} {r a : RTree},
    getAt p r = some a → f a = g a → mapAt p f r = mapAt p g r
  | [], f, g, r, a, hr, hfg => by
    simp only [getAt, Option.some.injEq] at hr
    subst hr
    exact hfg
  | i :: p, f, g, .node id ti d ks, a, hr, hfg => by
    simp only [getAt, RTree.kids] at hr
    cases hk : ks[i]? with
    | none => rw [hk] at hr; simp at hr
    | some c =>
      rw [hk] at hr
      simp only [mapAt]
      rw [modList_eq_of_get hk (mapAt_eq_of_getAt hr hfg)]

theorem getAt_mapAt_self : ∀ {p : List Nat} (f : RTree → RTree) {r a : RTree},
    getAt p r = some a → getAt p (mapAt p f r) = some (f a)
  | [], f, r, a, h => by
    simp only [getAt, Option.some.injEq] at h
    subst h
    rfl
  | i :: p, f, .node id ti d ks, a, h => by
    simp only [getAt, RTree.kids] at h
    cases hk : ks[i]? with
    | none => rw [hk] at h; simp at h
    | some c =>
      rw [hk] at h
      simp only [mapAt, getAt, RTree.kids]
      rw [modList_get, if_pos rfl, hk]
      simpa using getAt_mapAt_self f h

theorem appendAt_eq_mapAt : ∀ (p : List Nat) (c : RTree) (r : RTree),
    appendAt p c r = mapAt p (pushKid c) r
  | [], c, .node id ti d ks => rfl
  | i :: p, c, .node id ti d ks => by
    simp only [appendAt, mapAt]
    rw [modList_congr (fun x => appendAt_eq_mapAt p c x) i ks]

theorem pushKid_depth (c t : RTree) : (pushKid c t).depth = t.depth := by
  cases t
  rfl

theorem pushKid_kids (c t : RTree) : (pushKid c t).kids = t.kids ++ [c] := by
  cases t
  rfl

theorem pushKids_nil (t : RTree) : pushKids [] t = t := by
  cases t
  simp [pushKids]

theorem pushKids_pushKid (cs : List RTree) (c : RTree) (t : RTree) :
    pushKids cs (pushKid c t) = pushKids (c :: cs) t := by
  cases t
  simp [pushKids, pushKid]

/-! ## The rebuilt tree and the uniformity condition -/

mutual

/-- The tree the builder reconstructs from the pre-order blobs of a
subtree, when grafted under a parent whose `depth` attribute is
`pd`: identifiers survive, titles are re-cleaned from the
reconstructed blob, depths are re-assigned. -/
def rebuildT (pd : Nat) : RTree → RTree
  | .node id ti _ ks =>
    .node id ((parseIdAndTitle (id.getD [] ++ ' ' :: ti)).title) (pd + 1)
      (rebuildF (pd + 1) ks)

def rebuildF (pd : Nat) : List RTree → List RTree
  | [] => []
  | t :: ts => rebuildT pd t :: rebuildF pd ts

end

mutual

/-- Uniformity of a subtree all of whose nodes are to sit at spine key
`d`: every node carries a re-parseable identifier whose segment count
matches its tree depth, and an inky title. -/
def goodT (d : Nat) : RTree → Bool
  | .node id ti _ ks =>
    (match id with
     | some i => (parseReqIdx (i ++ [' ']) == some i) && (countSegs i == d) && hasInk ti
     | none => false)
    && goodF (d + 1) ks

def goodF (d : Nat) : List RTree → Bool
  | [] => true
  | t :: ts => goodT d t && goodF d ts

end

theorem goodT_elim {d : Nat} {t : RTree} (h : goodT d t = true) :
    ∃ i, t.ident = some i ∧ parseReqIdx (i ++ [' ']) = some i
      ∧ countSegs i = d ∧ hasInk t.title = true ∧ goodF (d + 1) t.kids = true := by
  cases t with
  | node id ti dd ks =>
    cases id with
    | none =>
      rw [goodT] at h
      exact absurd h (by simp)
    | some i =>
      rw [goodT] at h
      simp only [Bool.and_eq_true, beq_iff_eq] at h
      exact ⟨i, rfl, h.1.1.1, h.1.1.2, h.1.2, h.2⟩

theorem goodF_cons {d : Nat} {t : RTree} {ts : List RTree}
    (h : goodF d (t :: ts) = true) : goodT d t = true ∧ goodF d ts = true := by
  rw [goodF] at h
  simpa using h

mutual

theorem shape_rebuildT : ∀ (pd : Nat) (t : RTree), shapeOf (rebuildT pd t) = shapeOf t
  | pd, .node id ti dd ks => by
    show Shape.mk id (shapeOfF (rebuildF (pd + 1) ks)) = Shape.mk id (shapeOfF ks)
    rw [shape_rebuildF (pd + 1) ks]

theorem shape_rebuildF : ∀ (pd : Nat) (ts : List RTree),
    shapeOfF (rebuildF pd ts) = shapeOfF ts
  | _, [] => rfl
  | pd, t :: ts => by
    show shapeOf (rebuildT pd t) :: shapeOfF (rebuildF pd ts) = shapeOf t :: shapeOfF ts
    rw [shape_rebuildT pd t, shape_rebuildF pd ts]

end

theorem shapeOf_eta (t : RTree) : shapeOf t = .mk t.ident (shapeOfF t.kids) := by
  cases t
  rfl

theorem appendAt_ident (p : List Nat) (c t : RTree) :
    (appendAt p c t).ident = t.ident := by
  cases t with
  | node id ti d ks => cases p <;> rfl

theorem addNode_root_ident (st : BState) (b : List Char) :
    (addNodeFromBlob st b).root.ident = st.root.ident := by
  cases hpb : (parseIdAndTitle b).id with
  | none => rw [addNodeFromBlob_skip hpb]
  | some id =>
    simp only [addNodeFromBlob, hpb]
    cases hg : getAt ((st.lastByDepth (countSegs id - 1)).getD []) st.root with
    | none => rfl
    | some parent => exact appendAt_ident _ _ _

theorem modList_id : ∀ (i : Nat) (l : List α), modList (fun x => x) i l = l
  | 0, [] => rfl
  | _ + 1, [] => rfl
  | 0, a :: as => rfl
  | i + 1, a :: as => by simp [modList, modList_id i as]

theorem mapAt_id : ∀ (p : List Nat) (r : RTree), mapAt p (fun x => x) r = r
  | [], r => rfl
  | i :: p, .node id ti d ks => by
    simp only [mapAt]
    rw [modList_congr (fun x => mapAt_id p x) i ks, modList_id]

mutual

/-- Feeding the pre-order blobs of one uniform subtree into a builder
state whose spine maps `d - 1` to the path of an existing node grafts
the rebuilt subtree as that node's new last child; spine entries below
`d` are untouched. -/
theorem feedT : ∀ (t : RTree) (d : Nat) (S : BState) (p : List Nat) (a : RTree),
    goodT d t = true →
    getAt p S.root = some a →
    S.lastByDepth (d - 1) = some p →
    ∃ f : Nat → Option (List Nat),
      List.foldl addNodeFromBlob S (preBlobs t) =
        { root := mapAt p (pushKid (rebuildT a.depth t)) S.root, lastByDepth := f }
      ∧ ∀ k, k < d → f k = S.lastByDepth k
  | .node id ti dd ks, d, S, p, a, hg, hget, hlast => by
    obtain ⟨i, hid0, hre, hcnt, hink, hgF⟩ := goodT_elim hg
    have hid : id = some i := hid0
    subst hid
    obtain ⟨c, rest, _, _, hine, hinw⟩ := parseReqIdx_shape hre
    have hstrip : stripWs (i ++ ' ' :: ti) = i ++ ' ' :: rstrip ti :=
      stripWs_blob hine hinw hink
    have hpbid : (parseIdAndTitle (i ++ ' ' :: ti)).id = some i := by
      simp only [parseIdAndTitle]
      rw [hstrip]
      rw [if_neg (by simp)]
      show parseReqIdx (i ++ ' ' :: rstrip ti) = some i
      exact parseReqIdx_refeed hre (rstrip ti)
    have hgd : (S.lastByDepth (countSegs i - 1)).getD [] = p := by
      rw [hcnt, hlast]
      rfl
    have hstep : addNodeFromBlob S (i ++ ' ' :: ti)
        = { root := appendAt p (RTree.node (some i)
              ((parseIdAndTitle (i ++ ' ' :: ti)).title) (a.depth + 1) []) S.root,
            lastByDepth := fun k => if k = countSegs i then some (p ++ [a.kids.length])
              else S.lastByDepth k } := by
      simp only [addNodeFromBlob, hpbid, hgd, hget]
    have hchild : getAt (p ++ [a.kids.length])
        (({ root := appendAt p (RTree.node (some i)
              ((parseIdAndTitle (i ++ ' ' :: ti)).title) (a.depth + 1) []) S.root,
            lastByDepth := fun k => if k = countSegs i then some (p ++ [a.kids.length])
              else S.lastByDepth k } : BState)).root
        = some (RTree.node (some i)
            ((parseIdAndTitle (i ++ ' ' :: ti)).title) (a.depth + 1) []) :=
      getAt_appendAt_new _ hget
    have hlast1 :
        (({ root := appendAt p (RTree.node (some i)
              ((parseIdAndTitle (i ++ ' ' :: ti)).title) (a.depth + 1) []) S.root,
            lastByDepth := fun k => if k = countSegs i then some (p ++ [a.kids.length])
              else S.lastByDepth k } : BState)).lastByDepth (d + 1 - 1)
        = some (p ++ [a.kids.length]) := by
      show (if d = countSegs i then some (p ++ [a.kids.length]) else S.lastByDepth d)
        = some (p ++ [a.kids.length])
      rw [if_pos hcnt.symm]
    obtain ⟨f, hfold, hagree⟩ := feedF ks (d + 1) _ (p ++ [a.kids.length]) _ hgF hchild hlast1
    refine ⟨f, ?_, ?_⟩
    · simp only [preBlobs, Option.getD_some]
      rw [List.foldl_cons, hstep, hfold]
      congr 1
      rw [appendAt_eq_mapAt, mapAt_append, mapAt_mapAt]
      refine mapAt_eq_of_getAt hget ?_
      cases a with
      | node ia ta da ksa =>
        show RTree.node ia ta da
            (modList
              (mapAt []
                (pushKids (rebuildF (da + 1) ks)))
              ksa.length
              (ksa ++ [RTree.node (some i)
                ((parseIdAndTitle (i ++ ' ' :: ti)).title) (da + 1) []]))
          = RTree.node ia ta da
            (ksa ++ [rebuildT da (RTree.node (some i) ti dd ks)])
        rw [modList_congr (fun x => (rfl :
            mapAt [] (pushKids (rebuildF (da + 1) ks)) x
              = pushKids (rebuildF (da + 1) ks) x)) ksa.length]
        rw [modList_snoc_len]
        congr 1
    · intro k hk
      rw [hagree k (by omega)]
      show (if k = countSegs i then some (p ++ [a.kids.length]) else S.lastByDepth k)
        = S.lastByDepth k
      rw [if_neg (by rw [hcnt]; omega)]

/-- Feeding the pre-order blobs of a uniform forest appends the
rebuilt trees, in order, as new last children of the node the spine
maps `d - 1` to. -/
theorem feedF : ∀ (ts : List RTree) (d : Nat) (S : BState) (p : List Nat) (a : RTree),
    goodF d ts = true →
    getAt p S.root = some a →
    S.lastByDepth (d - 1) = some p →
    ∃ f : Nat → Option (List Nat),
      List.foldl addNodeFromBlob S (preBlobsF ts) =
        { root := mapAt p (pushKids (rebuildF a.depth ts)) S.root, lastByDepth := f }
      ∧ ∀ k, k < d → f k = S.lastByDepth k
  | [], d, S, p, a, _, _, _ => by
    obtain ⟨r, l⟩ := S
    refine ⟨l, ?_, fun k _ => rfl⟩
    show (⟨r, l⟩ : BState) = _
    have hmap : mapAt p (pushKids (rebuildF a.depth [])) r = r := by
      rw [show rebuildF a.depth [] = [] from rfl]
      rw [mapAt_congr (fun x => pushKids_nil x) p r, mapAt_id]
    rw [hmap]
  | t :: ts, d, S, p, a, hg, hget, hlast => by
    obtain ⟨hgT, hgR⟩ := goodF_cons hg
    obtain ⟨i, _, _, hcnt, _, _⟩ := goodT_elim hgT
    have hd1 : 1 ≤ d := by rw [← hcnt]; exact countSegs_pos i
    obtain ⟨f1, hfold1, hagree1⟩ := feedT t d S p a hgT hget hlast
    have hget1 :
        getAt p
          (({ root := mapAt p (pushKid (rebuildT a.depth t)) S.root,
              lastByDepth := f1 } : BState)).root
          = some (pushKid (rebuildT a.depth t) a) :=
      getAt_mapAt_self _ hget
    have hlast1 :
        (({ root := mapAt p (pushKid (rebuildT a.depth t)) S.root,
            lastByDepth := f1 } : BState)).lastByDepth (d - 1) = some p := by
      show f1 (d - 1) = some p
      rw [hagree1 (d - 1) (by omega)]
      exact hlast
    obtain ⟨f2, hfold2, hagree2⟩ := feedF ts d _ p _ hgR hget1 hlast1
    refine ⟨f2, ?_, fun k hk => by rw [hagree2 k hk]; exact hagree1 k hk⟩
    rw [show preBlobsF (t :: ts) = preBlobs t ++ preBlobsF ts from rfl]
    rw [List.foldl_append, hfold1, hfold2]
    congr 1
    rw [show (pushKid (rebuildT a.depth t) a).depth = a.depth from pushKid_depth _ _]
    rw [mapAt_mapAt]
    refine mapAt_congr (fun x => ?_) p S.root
    rw [pushKids_pushKid]
    rfl

end

mutual

/-- In a well-formed tree, a subtree hanging below the root satisfies
the uniformity condition at its own key: identifiers re-parse and the
keys increase by one per level (`childKey`). -/
theorem goodT_of_wf (st : BState) (hw : TreeWF st) :
    ∀ (c : RTree) (q : List Nat), getAt q st.root = some c → q ≠ [] →
      goodT (countSegs (c.ident.getD [])) c = true
  | .node id ti dd ks, q, hq, hne => by
    obtain ⟨i, hid0, ⟨s0, hs0⟩, hink⟩ := hw.identSome q _ hq hne
    have hid : id = some i := hid0
    subst hid
    rw [goodT]
    simp only [RTree.ident, Option.getD_some, Bool.and_eq_true]
    refine ⟨⟨⟨?_, ?_⟩, hink⟩, ?_⟩
    · simp [parseReqIdx_refeed hs0 []]
    · simp
    · refine goodF_of_wf st hw ks (countSegs i + 1) ?_
      intro j t hjt
      have hqt : getAt (q ++ [j]) st.root = some t := by
        rw [getAt_append, hq]
        show getAt [j] (RTree.node (some i) ti dd ks) = some t
        simp [getAt, RTree.kids, hjt]
      obtain ⟨idn, idm, hidn, hidm, hcnt⟩ :=
        hw.childKey q j _ t hq hqt hne
      have hni : idn = i := by
        have : some idn = some i := by rw [← hidn]; rfl
        simpa using this
      subst hni
      refine ⟨?_, q ++ [j], by simp, hqt⟩
      rw [hidm]
      exact hcnt

theorem goodF_of_wf (st : BState) (hw : TreeWF st) :
    ∀ (ts : List RTree) (d : Nat),
      (∀ (j : Nat) (t : RTree), ts[j]? = some t →
        countSegs (t.ident.getD []) = d ∧ ∃ q, q ≠ [] ∧ getAt q st.root = some t) →
      goodF d ts = true
  | [], _, _ => rfl
  | t :: ts, d, H => by
    obtain ⟨hk, q, hqne, hq⟩ := H 0 t (by simp)
    rw [goodF, Bool.and_eq_true]
    refine ⟨?_, goodF_of_wf st hw ts d (fun j u hj => H (j + 1) u (by simpa using hj))⟩
    rw [← hk]
    exact goodT_of_wf st hw t q hq hqne

end

theorem fold_root_ident : ∀ (bs : List (List Char)) (st : BState),
    ((bs.foldl addNodeFromBlob st).root).ident = st.root.ident
  | [], _ => rfl
  | b :: bs, st => by
    rw [List.foldl_cons, fold_root_ident bs (addNodeFromBlob st b), addNode_root_ident]

/-- The number of children of the top object of the encoded shape. -/
def Shape.childCount : Shape → Nat
  | .mk _ cs => cs.length

/-- C7 (counterexample): building from the blobs `"5 a"`, `"1.1.1 b"`,
`"2.2 c"` (the middle one falls back to the root, the last one attaches
under `"5"`), then feeding the reconstructed pre-order blobs back
through the builder, yields a tree of a different shape: the rebuilt
root has one child where the original has two. -/
theorem roundTripShape_cex :
    shapeOf (roundTrip (buildTree
        ["5 a".toList, "1.1.1 b".toList, "2.2 c".toList])).root
      ≠ shapeOf (buildTree ["5 a".toList, "1.1.1 b".toList, "2.2 c".toList]).root :=
  fun h => absurd (congrArg Shape.childCount h) (by decide)

/-- C7: when no root fallback occurred in the original build — every
root child carries a one-segment identifier, so each node's segment
count matches its level — serializing the tree and feeding each node's
reconstructed `identifier + " " + title` blob back through the builder
in depth-first pre-order rebuilds a tree with the same identifiers and
the same parent/child shape. -/
theorem roundTripShape (blobs : List (List Char))
    (h : ((buildTree blobs).root.kids.all (fun c => keyOf c == 1)) = true) :
    shapeOf (roundTrip (buildTree blobs)).root = shapeOf (buildTree blobs).root := by
  have hw := buildTree_wf blobs
  have hgood : goodF 1 (buildTree blobs).root.kids = true := by
    refine goodF_of_wf (buildTree blobs) hw _ 1 ?_
    intro j t hjt
    have hmem : t ∈ (buildTree blobs).root.kids := by
      have hj : j < ((buildTree blobs).root.kids).length := by
        by_contra hge
        rw [List.getElem?_eq_none (by omega)] at hjt
        exact absurd hjt (by simp)
      have : ((buildTree blobs).root.kids)[j] = t := by
        have h2 := List.getElem?_eq_getElem hj
        rw [hjt] at h2
        simpa using h2.symm
      rw [← this]
      exact List.getElem_mem hj
    have hk1 : (keyOf t == 1) = true := by
      rw [List.all_eq_true] at h
      exact h t hmem
    refine ⟨by simpa [keyOf] using hk1, [j], by simp, ?_⟩
    simp [getAt, hjt]
  obtain ⟨f, hfold, _⟩ := feedF (buildTree blobs).root.kids 1 initTree [] rootNode
    hgood rfl rfl
  have hrt : roundTrip (buildTree blobs)
      = { root := mapAt [] (pushKids (rebuildF rootNode.depth
            (buildTree blobs).root.kids)) initTree.root, lastByDepth := f } := hfold
  have hident : (buildTree blobs).root.ident = none := by
    unfold buildTree
    rw [fold_root_ident]
    rfl
  rw [hrt]
  show shapeOf (pushKids (rebuildF 0 (buildTree blobs).root.kids) rootNode)
    = shapeOf (buildTree blobs).root
  rw [shapeOf_eta (buildTree blobs).root, hident]
  show Shape.mk none (shapeOfF ([] ++ rebuildF 0 (buildTree blobs).root.kids))
    = Shape.mk none (shapeOfF (buildTree blobs).root.kids)
  rw [List.nil_append, shape_rebuildF]

theorem roundTripShape_witness :
    ((buildTree ["1 a".toList, "1.1 b".toList, "2 c".toList]).root.kids.all
        (fun c => keyOf c == 1)) = true
    ∧ shapeOf (roundTrip (buildTree
          ["1 a".toList, "1.1 b".toList, "2 c".toList])).root
        = shapeOf (buildTree ["1 a".toList, "1.1 b".toList, "2 c".toList]).root :=
  ⟨by decide, roundTripShape ["1 a".toList, "1.1 b".toList, "2 c".toList] (by decide)⟩

end PciDss
